import Mathlib

/-!
# Verification of the smart-ai-product-crawler core

A shallow embedding of the crawl-orchestration engine of the repository:

* `src/lib/urlUtils.ts` — URL normalisation (`normalizeUrl`,
  `removeLanguagePrefix`, `isValidUrl`, `isSameDomain`);
* `src/lib/crawler.ts` — the sequential orchestrator `crawlWebsite`,
  `getBaseDomain`, `deduplicateProducts`;
* `src/unnamed/part_002` — the batched orchestrator's `processNewUrls`,
  its priority assignment and its sort/splice frontier selection.

Strings are modelled as `List Char`.  The WHATWG `URL` object used by the
source through Node's `url` module is modelled by `parseUrl` /
`serializeUrl` below: scheme `"://"` host `[":" port]` path `["?" query]`
`["#" fragment]`, with scheme and host lower-cased by the parser, exactly
the fields the repository reads.  Percent-encoding, default-port dropping
and full-Unicode lower-casing are outside the model (no claim depends on
them); ASCII lower-casing is modelled by `lc`.

External collaborators (renderer, classifier, relative-URL resolution) are
oracle parameters of the crawl model, as the specification treats them.
-/

abbrev Str : Type := List Char

/-- The upper/lower pairs of the ASCII letters. -/
def lcPairs : List (Char × Char) :=
  [('A', 'a'), ('B', 'b'), ('C', 'c'), ('D', 'd'), ('E', 'e'), ('F', 'f'),
   ('G', 'g'), ('H', 'h'), ('I', 'i'), ('J', 'j'), ('K', 'k'), ('L', 'l'),
   ('M', 'm'), ('N', 'n'), ('O', 'o'), ('P', 'p'), ('Q', 'q'), ('R', 'r'),
   ('S', 's'), ('T', 't'), ('U', 'u'), ('V', 'v'), ('W', 'w'), ('X', 'x'),
   ('Y', 'y'), ('Z', 'z')]

/-- ASCII lower-casing of a single character, modelling the effect of
JavaScript `toLowerCase` on the ASCII range. -/
def lc (c : Char) : Char :=
  match lcPairs.find? (fun p => p.1 = c) with
  | some p => p.2
  | none => c

def lowerStr (s : Str) : Str := s.map lc

/-- Auxiliary for `splitOnC`: the first piece and the remaining pieces. -/
def splitOnCA (sep : Char) : Str → Str × List Str
  | [] => ([], [])
  | c :: cs =>
    let r := splitOnCA sep cs
    if c = sep then ([], r.1 :: r.2) else (c :: r.1, r.2)

/-- `String.prototype.split(sep)` on single-character separators. -/
def splitOnC (sep : Char) (l : Str) : List Str :=
  (splitOnCA sep l).1 :: (splitOnCA sep l).2

/-- `Array.prototype.join(sep)` on single-character separators. -/
def intercalateC (sep : Char) : List Str → Str
  | [] => []
  | [p] => p
  | p :: ps => p ++ sep :: intercalateC sep ps

/-- `pathname.replace(/\/+$/, "")` — drop every trailing slash
(`src/lib/urlUtils.ts:14`). -/
def stripTrailingSlashes (p : Str) : Str :=
  ((p.reverse).dropWhile (fun c => c = '/')).reverse

/-- `LANGUAGE_CODES` of `src/lib/urlUtils.ts:92`. -/
def languageCodes : List Str :=
  (["en", "ar", "fr", "es", "de", "it", "ru", "zh", "ja", "ko", "nl", "pl",
    "pt", "tr", "vi", "th", "id", "ms", "hi"]).map String.data

/-- `removeLanguagePrefix` of `src/lib/urlUtils.ts:114`:
split on `/`, drop empty segments, and when the first segment is a known
language code rebuild the path from the remaining segments. -/
def removeLanguagePrefix (p : Str) : Str :=
  match (splitOnC '/' p).filter (fun x => x ≠ []) with
  | [] => p
  | first :: rest =>
    if languageCodes.contains (lowerStr first) then '/' :: intercalateC '/' rest
    else p

/-! ## The URL object -/

def isHostChar (c : Char) : Bool := !(c = '/' || c = '?' || c = '#' || c = ':')

def isPortChar (c : Char) : Bool := !(c = '/' || c = '?' || c = '#')

def isPathChar (c : Char) : Bool := !(c = '?' || c = '#')

structure Url where
  scheme : Str
  host : Str
  port : Str
  path : Str
  query : List (Str × Str)
  frag : Str
deriving DecidableEq

/-- The value part of a `key=value` item: everything after a leading `=`. -/
def parseVal (r : Str) : Str :=
  match r with
  | '=' :: v => v
  | _ => []

/-- One `key=value` item of a query string, split at the first `=`
(as `URLSearchParams` does). -/
def parsePair (part : Str) : Str × Str :=
  (part.takeWhile (fun c => c ≠ '='), parseVal (part.dropWhile (fun c => c ≠ '=')))

/-- `URLSearchParams` parsing: split on `&`, skip empty items. -/
def parseQuery (q : Str) : List (Str × Str) :=
  ((splitOnC '&' q).filter (fun p => p ≠ [])).map parsePair

/-- The fragment part: everything after a leading `#`. -/
def parseFrag (r : Str) : Str :=
  match r with
  | '#' :: f => f
  | _ => []

/-- Query string and fragment of the remainder after the path. -/
def parseQF (r5 : Str) : List (Str × Str) × Str :=
  match r5 with
  | '?' :: r =>
    (parseQuery (r.takeWhile (fun c => c ≠ '#')), parseFrag (r.dropWhile (fun c => c ≠ '#')))
  | '#' :: f => ([], f)
  | _ => ([], [])

/-- Split the remainder after host and port into path, query pairs and
fragment. -/
def parsePathQF (r4 : Str) : Str × (List (Str × Str) × Str) :=
  (r4.takeWhile isPathChar, parseQF (r4.dropWhile isPathChar))

/-- Assemble the record once scheme, host and port are isolated.  The
WHATWG parser rejects non-numeric ports. -/
def parseWithPort (scheme host port r4 : Str) : Option Url :=
  if port.all Char.isDigit then
    some { scheme := lowerStr scheme, host := lowerStr host, port := port,
           path := (parsePathQF r4).1, query := (parsePathQF r4).2.1,
           frag := (parsePathQF r4).2.2 }
  else none

/-- Split an optional `:port` off the remainder after the host and
finish. -/
def parseHost (scheme host r3 : Str) : Option Url :=
  if host = [] then none
  else
    match r3 with
    | ':' :: r => parseWithPort scheme host (r.takeWhile isPortChar) (r.dropWhile isPortChar)
    | _ => parseWithPort scheme host [] r3

/-- Model of `new URL(s)`: scheme up to `:`, then `//`, host up to
`/ ? # :`, optional `:port` (digits only), path up to `? #`, query up to
`#`, fragment.  Scheme and host are lower-cased, as the `URL` object
reports them. -/
def parseUrl (s : Str) : Option Url :=
  match s.dropWhile (fun c => c ≠ ':') with
  | ':' :: '/' :: '/' :: r2 =>
    if s.takeWhile (fun c => c ≠ ':') = [] then none
    else parseHost (s.takeWhile (fun c => c ≠ ':'))
      (r2.takeWhile isHostChar) (r2.dropWhile isHostChar)
  | _ => none

def joinPair (p : Str × Str) : Str := p.1 ++ '=' :: p.2

/-- `URLSearchParams.prototype.toString` (sans percent-encoding). -/
def joinQuery (q : List (Str × Str)) : Str := intercalateC '&' (q.map joinPair)

/-- `url.toString()`: empty path serialises as `/` (the WHATWG pathname
setter never leaves a special URL without a path), an empty port, query or
fragment drops its delimiter. -/
def serializeUrl (u : Url) : Str :=
  u.scheme ++ ':' :: '/' :: '/' :: u.host
    ++ (if u.port = [] then [] else ':' :: u.port)
    ++ (if u.path = [] then ['/'] else u.path)
    ++ (if u.query = [] then [] else '?' :: joinQuery u.query)
    ++ (if u.frag = [] then [] else '#' :: u.frag)

/-! ## Normalisation (`normalizeUrl`, `src/lib/urlUtils.ts:3`) -/

/-- The comparator `([a], [b]) => a.localeCompare(b)` used to sort query
parameters, modelled as case-insensitive lexicographic order on keys
(ICU collation compares base letters first). -/
def lexLe : Str → Str → Bool
  | [], _ => true
  | _ :: _, [] => false
  | a :: as, b :: bs => if a < b then true else if b < a then false else lexLe as bs

def paramLe (a b : Str × Str) : Prop := lexLe (lowerStr a.1) (lowerStr b.1) = true

instance : DecidableRel paramLe := fun a b =>
  inferInstanceAs (Decidable (lexLe (lowerStr a.1) (lowerStr b.1) = true))

/-- `Array.prototype.sort` is stable; `List.insertionSort` is its stable
model. -/
def sortParams (q : List (Str × Str)) : List (Str × Str) :=
  List.insertionSort paramLe q

/-- The field-level effect of `normalizeUrl`, in source order: drop the
fragment, remove the language prefix, strip trailing slashes, sort the
query parameters. -/
def normCore (u : Url) : Url :=
  { u with frag := []
         , path := stripTrailingSlashes (removeLanguagePrefix u.path)
         , query := sortParams u.query }

/-- Lower-casing a whole serialised URL, component by component. -/
def mapLowerUrl (u : Url) : Url :=
  { scheme := lowerStr u.scheme, host := lowerStr u.host,
    port := lowerStr u.port, path := lowerStr u.path,
    query := u.query.map (fun p => (lowerStr p.1, lowerStr p.2)),
    frag := lowerStr u.frag }

/-- `normalizeUrl` (`src/lib/urlUtils.ts:3`): parse, normalise the fields,
serialise, lower-case.  `none` models the `Invalid URL` throw. -/
def normalizeUrl (s : Str) : Option Str :=
  (parseUrl s).map (fun u => lowerStr (serializeUrl (normCore u)))

/-- `isValidUrl` (`src/lib/urlUtils.ts:41`): `new URL` succeeds. -/
def isValidUrl (s : Str) : Bool := (parseUrl s).isSome

/-- `getBaseDomain` (`src/lib/crawler.ts:73`): the hostname, or `""` for
unparsable input. -/
def getBaseDomain (s : Str) : Str :=
  match parseUrl s with
  | some u => u.host
  | none => []

/-- `isSameDomain` (`src/lib/urlUtils.ts:31`). -/
def isSameDomain (a b : Str) : Bool :=
  match parseUrl a, parseUrl b with
  | some u, some v => u.host = v.host
  | _, _ => false

example : normalizeUrl "https://a.com/en/Shop/?b=2&a=1".data
    = some "https://a.com/shop?a=1&b=2".data := by decide

example : normalizeUrl "https://a.com/shop?a=1&b=2#x".data
    = some "https://a.com/shop?a=1&b=2".data := by decide

example : normalizeUrl "https://a.com/en/fr/x".data
    = some "https://a.com/fr/x".data := by decide

example : normalizeUrl "https://a.com/fr/x".data
    = some "https://a.com/x".data := by decide

example : isValidUrl "not a url".data = false := by decide

/-! ## Data model of the orchestrator (`src/lib/crawler.ts:12`) -/

structure ProductData where
  name : Str
  price : Str
  description : Str
  url : Str
  imageUrl : Option Str
deriving DecidableEq

structure CrawlResult where
  products : List ProductData
  visitedUrls : List Str
  error : Option Str
deriving DecidableEq

inductive PageType
  | product
  | listing
  | category
  | other
deriving DecidableEq

/-- `PageAnalysis` (`src/lib/crawler.ts:27`); the `analysis.x || []`
defaulting of `analyzePageWithGemini` makes every link list total. -/
structure PageAnalysis where
  pageType : PageType
  product : Option ProductData
  productLinks : List Str
  paginationLinks : List Str
  categoryLinks : List Str
  otherRelevantLinks : List Str
deriving DecidableEq

/-- A successful render: document text, anchor hrefs, and `response.url()`
(the post-redirect URL; `[]` models a falsy value, for which `fetchPage`
falls back to the requested URL). -/
structure FetchPage where
  html : Str
  links : List Str
  respUrl : Str
deriving DecidableEq

/-- Outcome of one renderer navigation: a 404 (`fetchPage` returns
`null`), a thrown error (timeout, navigation failure), or a page. -/
inductive FetchOutcome
  | notFound
  | failure
  | success (p : FetchPage)
deriving DecidableEq

/-- The collaborators `crawlWebsite` calls, as oracle parameters:
browser start-up, `page.goto`, Gemini classification, `new URL(link,
base)` resolution (`none` models a throw), and the two pure URL
predicates `isResourceUrl` / `isLikelyProductOrListingUrl` (regex
heuristics whose verdict, a boolean, is all the orchestrator reads). -/
structure Oracles where
  init : Except Str Unit
  fetch : Str → FetchOutcome
  analyze : Str → Str → List Str → PageAnalysis
  resolve : Str → Str → Option Str
  isResource : Str → Bool
  isLikely : Str → Bool

/-- Crawl-loop state.  `fetched` and `analyzed` record, in order, the URLs
handed to `fetchPage` and to `analyzePageWithGemini` (instrumentation for
the zero-calls and domain-confinement claims). -/
structure CrawlState where
  visited : List Str
  pending : List Str
  products : List ProductData
  seenProductUrls : List Str
  fetched : List Str
  analyzed : List Str
deriving DecidableEq

/-- `fetchPage` (`src/lib/crawler.ts:259`).  Outer `none` = the call threw
(caught by the per-URL handler); `some none` = 404; otherwise the page
with its normalised final URL. -/
def fetchPageM (o : Oracles) (url : Str) : Option (Option (Str × List Str × Str)) :=
  match o.fetch url with
  | .notFound => some none
  | .failure => none
  | .success p =>
    let eff := if p.respUrl = [] then url else p.respUrl
    match normalizeUrl eff with
    | none => none
    | some b => some (some (p.html, p.links, b))

/-- Link preprocessing (`src/lib/crawler.ts:143`): resolve against the
page's base URL, normalise, reject resources, off-domain links and
non-product/listing URLs. -/
def preprocessLink (o : Oracles) (baseDomain baseUrl : Str) (link : Str) : Option Str :=
  match (o.resolve link baseUrl).bind normalizeUrl with
  | none => none
  | some nl =>
    if o.isResource nl then none
    else if getBaseDomain nl ≠ baseDomain then none
    else if o.isLikely nl then some nl else none

/-- Classified-link post-processing (`src/lib/crawler.ts:203`): resolve,
normalise, keep only links on the crawl's base domain. -/
def relevantLink (o : Oracles) (baseDomain baseUrl : Str) (link : Str) : Option Str :=
  match (o.resolve link baseUrl).bind normalizeUrl with
  | none => none
  | some nl => if getBaseDomain nl = baseDomain then some nl else none

/-- The `for (const link of allRelevantLinks)` loop
(`src/lib/crawler.ts:218`): re-check the visited set, then mark visited
and enqueue in one step. -/
def pushLinks (s : CrawlState) (links : List Str) : CrawlState :=
  links.foldl
    (fun st link =>
      if link ∈ st.visited then st
      else { st with visited := st.visited ++ [link],
                     pending := st.pending ++ [link] })
    s

/-- The product-accumulation block (`src/lib/crawler.ts:185`–`194`): push
the extracted record under the normalised page URL unless that URL was
already seen. -/
def productUpdate (prod : ProductData) (npu : Str) (s : CrawlState) : CrawlState :=
  if npu ∈ s.seenProductUrls then s
  else { s with products := s.products ++ [{ prod with url := npu }],
                seenProductUrls := s.seenProductUrls ++ [npu] }

/-- Integration of one page analysis (`src/lib/crawler.ts:185`–`223`):
record the product when the page is one (abandoning the rest of the
iteration when `normalizeUrl(currentUrl)` throws, as the per-URL handler
does), then filter and enqueue the classified links. -/
def crawlAnalyzed (o : Oracles) (baseDomain u baseUrl : Str) (pa : PageAnalysis)
    (s : CrawlState) : CrawlState :=
  let allRelevant :=
    (((pa.productLinks ++ pa.paginationLinks ++ pa.categoryLinks
        ++ pa.otherRelevantLinks).map (relevantLink o baseDomain baseUrl)).filterMap
      id).filter (fun l => l ∉ s.visited)
  match pa.pageType, pa.product with
  | PageType.product, some prod =>
    match normalizeUrl u with
    | none => s
    | some npu => pushLinks (productUpdate prod npu s) allRelevant
  | _, _ => pushLinks s allRelevant

/-- The body of one `while` iteration of `crawlWebsite`
(`src/lib/crawler.ts:101`–`240`) for dequeued URL `u`; `s.pending` is
already the rest of the queue (`pendingUrls.shift()`).  The skip chain: a
falsy (empty) URL, a resource URL, then a URL that is neither the seed nor
likely a product/listing page.  Only then is the page fetched, analysed
and integrated. -/
def crawlStep (o : Oracles) (baseDomain normStart : Str) (u : Str)
    (s : CrawlState) : CrawlState :=
  if u = [] then s
  else if o.isResource u then s
  else if ¬ (o.isLikely u = true) ∧ normStart ≠ u then s
  else
    match fetchPageM o u with
    | none => { s with fetched := s.fetched ++ [u] }
    | some none => { s with fetched := s.fetched ++ [u] }
    | some (some (html, links, baseUrl)) =>
      let s1 := { s with fetched := s.fetched ++ [u] }
      let filteredLinks :=
        ((links.map (preprocessLink o baseDomain baseUrl)).filterMap id).filter
          (fun l => l ∉ s1.visited ∧ l ≠ u)
      crawlAnalyzed o baseDomain u baseUrl (o.analyze html u filteredLinks)
        { s1 with analyzed := s1.analyzed ++ [u] }

/-- The `while (pendingUrls.length > 0 && visitedUrls.size < maxPages)`
loop, with explicit fuel (the source loop terminates because the visited
set is finite; any fuel at least the iteration count reproduces it). -/
def crawlLoop (o : Oracles) (baseDomain normStart : Str) (maxPages : Int) :
    Nat → CrawlState → CrawlState
  | 0, s => s
  | fuel + 1, s =>
    if (s.visited.length : Int) < maxPages then
      match s.pending with
      | [] => s
      | u :: rest =>
        crawlLoop o baseDomain normStart maxPages fuel
          (crawlStep o baseDomain normStart u { s with pending := rest })
    else s

/-- `deduplicateProducts` (`src/lib/crawler.ts:369`): a `Map` keyed by
product URL keeps the first record inserted for each key;
`Array.from(map.values())` lists them in insertion order. -/
def deduplicateProducts (products : List ProductData) : List ProductData :=
  (products.foldl
    (fun m p => if m.any (fun e => e.1 = p.url) then m else m ++ [(p.url, p)])
    []).map (fun e => e.2)

def emptyCrawlState : CrawlState :=
  { visited := [], pending := [], products := [], seenProductUrls := [],
    fetched := [], analyzed := [] }

/-- `crawlWebsite` (`src/lib/crawler.ts:82`).  The result pairs the
returned promise (`Except.error` = a rejected promise, since the
`try`/`finally` has no `catch`) with the final instrumented state.  An
invalid start URL returns before touching the browser; a failing
`initBrowser` rejects before the loop runs. -/
def crawlWebsite (o : Oracles) (startUrl : Str) (maxPages : Int) (fuel : Nat) :
    Except Str CrawlResult × CrawlState :=
  match normalizeUrl startUrl with
  | none =>
    (Except.ok { products := [], visitedUrls := [],
                 error := some "Invalid start URL".data }, emptyCrawlState)
  | some nstart =>
    match o.init with
    | .error e => (Except.error e, emptyCrawlState)
    | .ok _ =>
      let baseDomain := getBaseDomain startUrl
      let final := crawlLoop o baseDomain nstart maxPages fuel
        { visited := [nstart], pending := [nstart], products := [],
          seenProductUrls := [], fetched := [], analyzed := [] }
      (Except.ok { products := deduplicateProducts final.products,
                   visitedUrls := final.visited, error := none }, final)

/-- The products of a delivered result (empty when the promise rejected). -/
def resultProducts (r : Except Str CrawlResult × CrawlState) : List ProductData :=
  match r.1 with
  | .ok res => res.products
  | .error _ => []

/-! ## The batched orchestrator (`src/unnamed/part_002`) -/

structure PendingUrl where
  url : Str
  priority : Int
deriving DecidableEq

/-- `processUrl` inside `processNewUrls` (`src/unnamed/part_002:212`):
resolve against the base URL, normalise, keep on-domain unvisited links
with the given priority. -/
def processUrlB (resolve : Str → Str → Option Str) (baseUrl baseDomain : Str)
    (visited : List Str) (url : Str) (priority : Int) : Option PendingUrl :=
  match (resolve url baseUrl).bind normalizeUrl with
  | none => none
  | some nl =>
    if getBaseDomain nl = baseDomain ∧ nl ∉ visited then
      some { url := nl, priority := priority }
    else none

/-- `processNewUrls` (`src/unnamed/part_002:203`): each link category is
pushed with its priority — products 3, pagination 2, categories 2, other
relevant links 1.  (The `links` parameter exists in the source signature
but is never read.) -/
def processNewUrls (resolve : Str → Str → Option Str) (links : List Str)
    (baseUrl baseDomain : Str) (visited : List Str) (pa : PageAnalysis) :
    List PendingUrl :=
  pa.productLinks.filterMap (fun u => processUrlB resolve baseUrl baseDomain visited u 3)
    ++ pa.paginationLinks.filterMap (fun u => processUrlB resolve baseUrl baseDomain visited u 2)
    ++ pa.categoryLinks.filterMap (fun u => processUrlB resolve baseUrl baseDomain visited u 2)
    ++ pa.otherRelevantLinks.filterMap (fun u => processUrlB resolve baseUrl baseDomain visited u 1)

/-- The initial frontier of the batched `crawlWebsite`
(`src/unnamed/part_002:98`): the seed at priority 1. -/
def initialPendingB (nstart : Str) : List PendingUrl :=
  [{ url := nstart, priority := 1 }]

def priorityGe (a b : PendingUrl) : Prop := b.priority ≤ a.priority

instance : DecidableRel priorityGe := fun a b =>
  inferInstanceAs (Decidable (b.priority ≤ a.priority))

def BATCH_SIZE : Nat := 5

/-- `pendingUrls.sort((a, b) => b.priority - a.priority)` followed by
`pendingUrls.splice(0, BATCH_SIZE)` (`src/unnamed/part_002:108`–`111`):
a stable descending sort, then the batch and the remaining queue. -/
def selectBatch (pending : List PendingUrl) : List PendingUrl × List PendingUrl :=
  let sorted := List.insertionSort priorityGe pending
  (sorted.take BATCH_SIZE, sorted.drop BATCH_SIZE)

/-! ## Helper lemmas: ASCII lower-casing -/

theorem lc_cases (c : Char) : lc c = c ∨ (c, lc c) ∈ lcPairs := by
  unfold lc
  cases h : lcPairs.find? (fun p => p.1 = c) with
  | none => exact Or.inl rfl
  | some p =>
    right
    have hm := List.mem_of_find?_eq_some h
    have he : p.1 = c := by simpa using List.find?_some h
    simpa [← he] using hm

theorem lc_lc (c : Char) : lc (lc c) = lc c := by
  rcases lc_cases c with h | h
  · rw [h]; exact h
  · exact (by decide : ∀ p ∈ lcPairs, lc p.2 = p.2) _ h

theorem lc_eq_special {c r : Char}
    (hr : r ∈ ([':', '/', '?', '#', '&', '='] : List Char)) :
    lc c = r ↔ c = r := by
  rcases lc_cases c with h | h
  · rw [h]
  · have h1 := (by decide :
      ∀ p ∈ lcPairs, ∀ r ∈ ([':', '/', '?', '#', '&', '='] : List Char),
        p.1 ≠ r ∧ p.2 ≠ r) _ h r hr
    exact iff_of_false h1.2 h1.1

@[simp] theorem lc_eq_colon {c : Char} : lc c = ':' ↔ c = ':' :=
  lc_eq_special (by decide)

@[simp] theorem lc_eq_slash {c : Char} : lc c = '/' ↔ c = '/' :=
  lc_eq_special (by decide)

@[simp] theorem lc_eq_qmark {c : Char} : lc c = '?' ↔ c = '?' :=
  lc_eq_special (by decide)

@[simp] theorem lc_eq_hash {c : Char} : lc c = '#' ↔ c = '#' :=
  lc_eq_special (by decide)

@[simp] theorem lc_eq_amp {c : Char} : lc c = '&' ↔ c = '&' :=
  lc_eq_special (by decide)

@[simp] theorem lc_eq_eqch {c : Char} : lc c = '=' ↔ c = '=' :=
  lc_eq_special (by decide)

@[simp] theorem isDigit_lc (c : Char) : (lc c).isDigit = c.isDigit := by
  rcases lc_cases c with h | h
  · rw [h]
  · exact (by decide : ∀ p ∈ lcPairs, p.2.isDigit = p.1.isDigit) _ h

@[simp] theorem isHostChar_lc (c : Char) : isHostChar (lc c) = isHostChar c := by
  simp [isHostChar]

@[simp] theorem isPortChar_lc (c : Char) : isPortChar (lc c) = isPortChar c := by
  simp [isPortChar]

@[simp] theorem isPathChar_lc (c : Char) : isPathChar (lc c) = isPathChar c := by
  simp [isPathChar]

theorem lowerStr_append (a b : Str) : lowerStr (a ++ b) = lowerStr a ++ lowerStr b :=
  List.map_append ..

theorem lowerStr_lowerStr (s : Str) : lowerStr (lowerStr s) = lowerStr s := by
  simp [lowerStr, Function.comp_def, lc_lc]

@[simp] theorem lowerStr_eq_nil {s : Str} : lowerStr s = [] ↔ s = [] := by
  simp [lowerStr]

/-! ## Helper lemmas: takeWhile / dropWhile across appends -/

theorem takeWhile_append_cons {p : Char → Bool} {l1 l2 : Str} {b : Char}
    (h1 : ∀ a ∈ l1, p a = true) (hb : p b = false) :
    List.takeWhile p (l1 ++ b :: l2) = l1 := by
  induction l1 with
  | nil => simp [List.takeWhile_cons, hb]
  | cons a l ih =>
    have ha := h1 a (List.mem_cons_self a l)
    simp [List.takeWhile_cons, ha, ih (fun x hx => h1 x (List.mem_cons_of_mem a hx))]

theorem dropWhile_append_cons {p : Char → Bool} {l1 l2 : Str} {b : Char}
    (h1 : ∀ a ∈ l1, p a = true) (hb : p b = false) :
    List.dropWhile p (l1 ++ b :: l2) = b :: l2 := by
  induction l1 with
  | nil => simp [List.dropWhile_cons, hb]
  | cons a l ih =>
    have ha := h1 a (List.mem_cons_self a l)
    simp [List.dropWhile_cons, ha, ih (fun x hx => h1 x (List.mem_cons_of_mem a hx))]

theorem takeWhile_all {p : Char → Bool} {l : Str} (h : ∀ a ∈ l, p a = true) :
    List.takeWhile p l = l :=
  List.takeWhile_eq_self_iff.mpr h

theorem dropWhile_all {p : Char → Bool} {l : Str} (h : ∀ a ∈ l, p a = true) :
    List.dropWhile p l = [] :=
  List.dropWhile_eq_nil_iff.mpr h

/-! ## Helper lemmas: splitting and joining -/

theorem splitOnCA_no_sep {sep : Char} {l : Str} (h : sep ∉ l) :
    splitOnCA sep l = (l, []) := by
  induction l with
  | nil => rfl
  | cons c cs ih =>
    have hc : ¬ c = sep := fun hc => h (hc ▸ List.mem_cons_self c cs)
    simp [splitOnCA, hc, ih (fun hm => h (List.mem_cons_of_mem c hm))]

theorem splitOnCA_append_sep {sep : Char} {l1 l2 : Str} (h : sep ∉ l1) :
    splitOnCA sep (l1 ++ sep :: l2) =
      (l1, (splitOnCA sep l2).1 :: (splitOnCA sep l2).2) := by
  induction l1 with
  | nil => simp [splitOnCA]
  | cons c cs ih =>
    have hc : ¬ c = sep := fun hc => h (hc ▸ List.mem_cons_self c cs)
    simp [splitOnCA, hc, ih (fun hm => h (List.mem_cons_of_mem c hm))]

theorem splitOnC_intercalateC {sep : Char} {parts : List Str}
    (hne : parts ≠ []) (h : ∀ x ∈ parts, sep ∉ x) :
    splitOnC sep (intercalateC sep parts) = parts := by
  induction parts with
  | nil => exact absurd rfl hne
  | cons p ps ih =>
    cases ps with
    | nil =>
      simp [intercalateC, splitOnC,
        splitOnCA_no_sep (h p (List.mem_cons_self p []))]
    | cons q qs =>
      have hops : intercalateC sep (p :: q :: qs) = p ++ sep :: intercalateC sep (q :: qs) := rfl
      rw [splitOnC, hops,
        splitOnCA_append_sep (h p (List.mem_cons_self p (q :: qs)))]
      have := ih (by simp) (fun x hx => h x (List.mem_cons_of_mem p hx))
      rw [splitOnC] at this
      simpa using this

theorem splitOnCA_replicate (sep : Char) (n : Nat) :
    splitOnCA sep (List.replicate n sep) = ([], List.replicate n []) := by
  induction n with
  | zero => rfl
  | succ n ih => simp [List.replicate_succ, splitOnCA, ih]

theorem splitOnCA_append_replicate (sep : Char) (n : Nat) (p : Str) :
    splitOnCA sep (p ++ List.replicate n sep) =
      ((splitOnCA sep p).1, (splitOnCA sep p).2 ++ List.replicate n []) := by
  induction p with
  | nil => simp [splitOnCA, splitOnCA_replicate]
  | cons c cs ih =>
    by_cases hc : c = sep <;> simp [splitOnCA, hc, ih]

/-- Dropping trailing separators does not change the nonempty pieces. -/
theorem splitOnC_filter_replicate (sep : Char) (n : Nat) (p : Str) :
    (splitOnC sep (p ++ List.replicate n sep)).filter (fun x => x ≠ []) =
      (splitOnC sep p).filter (fun x => x ≠ []) := by
  simp only [splitOnC, splitOnCA_append_replicate]
  cases h1 : (splitOnCA sep p).1 with
  | nil =>
    simp only [List.filter_cons, List.filter_append]
    have : (List.replicate n ([] : Str)).filter (fun x => x ≠ []) = [] := by
      rw [List.filter_eq_nil_iff]
      intro a ha
      simp [List.eq_of_mem_replicate ha]
    simp [this]
  | cons c cs =>
    simp only [List.filter_cons, List.filter_append]
    have : (List.replicate n ([] : Str)).filter (fun x => x ≠ []) = [] := by
      rw [List.filter_eq_nil_iff]
      intro a ha
      simp [List.eq_of_mem_replicate ha]
    simp [this]

theorem splitOnCA_chars {sep : Char} {l : Str} :
    (∀ c ∈ (splitOnCA sep l).1, c ∈ l ∧ c ≠ sep) ∧
    (∀ part ∈ (splitOnCA sep l).2, ∀ c ∈ part, c ∈ l ∧ c ≠ sep) := by
  induction l with
  | nil => simp [splitOnCA]
  | cons a as ih =>
    by_cases ha : a = sep
    · refine ⟨by simp [splitOnCA, ha], ?_⟩
      simp only [splitOnCA, ha, if_pos rfl]
      rintro part hp c hc
      rcases List.mem_cons.mp hp with h | h
      · subst h
        exact ⟨List.mem_cons_of_mem _ (ih.1 c hc).1, (ih.1 c hc).2⟩
      · exact ⟨List.mem_cons_of_mem _ (ih.2 part h c hc).1, (ih.2 part h c hc).2⟩
    · constructor
      · simp only [splitOnCA, if_neg ha]
        rintro c hc
        rcases List.mem_cons.mp hc with h | h
        · subst h; exact ⟨List.mem_cons_self _ _, ha⟩
        · exact ⟨List.mem_cons_of_mem _ (ih.1 c h).1, (ih.1 c h).2⟩
      · simp only [splitOnCA, if_neg ha]
        intro part hp c hc
        exact ⟨List.mem_cons_of_mem _ (ih.2 part hp c hc).1, (ih.2 part hp c hc).2⟩

theorem mem_splitOnC_chars {sep : Char} {l part : Str} {c : Char}
    (hp : part ∈ splitOnC sep l) (hc : c ∈ part) : c ∈ l ∧ c ≠ sep := by
  rcases List.mem_cons.mp hp with h | h
  · exact splitOnCA_chars.1 c (h ▸ hc)
  · exact splitOnCA_chars.2 part h c hc

theorem splitOnCA_map {f : Char → Char} {sep : Char}
    (hf : ∀ c, f c = sep ↔ c = sep) (l : Str) :
    splitOnCA sep (l.map f) =
      ((splitOnCA sep l).1.map f, (splitOnCA sep l).2.map (List.map f)) := by
  induction l with
  | nil => rfl
  | cons c cs ih =>
    by_cases hc : c = sep
    · have hfc : f sep = sep := by rw [← hc]; exact ((hf c).mpr hc).trans hc.symm
      simp [splitOnCA, hc, hfc, ih]
    · have hfc : ¬ f c = sep := fun h => hc ((hf c).mp h)
      simp [splitOnCA, hc, hfc, ih]

theorem intercalateC_map {f : Char → Char} {sep : Char} (hf : f sep = sep)
    (parts : List Str) :
    intercalateC sep (parts.map (List.map f)) = (intercalateC sep parts).map f := by
  induction parts with
  | nil => rfl
  | cons p ps ih =>
    cases ps with
    | nil => rfl
    | cons q qs =>
      have ih' := ih
      simp only [List.map_cons] at ih'
      simp [intercalateC, hf, ih']

theorem mem_intercalateC {sep : Char} {parts : List Str} {c : Char}
    (h : c ∈ intercalateC sep parts) : c = sep ∨ ∃ part ∈ parts, c ∈ part := by
  induction parts with
  | nil => simp [intercalateC] at h
  | cons p ps ih =>
    cases ps with
    | nil =>
      exact Or.inr ⟨p, List.mem_cons_self p [], h⟩
    | cons q qs =>
      have hrep : intercalateC sep (p :: q :: qs) = p ++ sep :: intercalateC sep (q :: qs) := rfl
      rw [hrep, List.mem_append] at h
      rcases h with h | h
      · exact Or.inr ⟨p, List.mem_cons_self _ _, h⟩
      · rcases List.mem_cons.mp h with h | h
        · exact Or.inl h
        · rcases ih h with h | ⟨part, hp, hc⟩
          · exact Or.inl h
          · exact Or.inr ⟨part, List.mem_cons_of_mem _ hp, hc⟩

/-! ## The parse/serialise round trip -/

/-- Well-formedness of a `Url` record: exactly the shape every record in
the image of `parseUrl` (and of the normalisation pipeline) has. -/
structure UrlWF (u : Url) : Prop where
  scheme_ne : u.scheme ≠ []
  scheme_chars : ':' ∉ u.scheme
  scheme_lower : lowerStr u.scheme = u.scheme
  host_ne : u.host ≠ []
  host_chars : ∀ c ∈ u.host, isHostChar c = true
  host_lower : lowerStr u.host = u.host
  port_digits : ∀ c ∈ u.port, c.isDigit = true
  path_shape : u.path = [] ∨ ∃ t, u.path = '/' :: t
  path_chars : ∀ c ∈ u.path, isPathChar c = true
  query_wf : ∀ p ∈ u.query,
    ('=' ∉ p.1) ∧ ('&' ∉ p.1) ∧ ('#' ∉ p.1) ∧ ('&' ∉ p.2) ∧ ('#' ∉ p.2)

/-- Serialising replaces an empty path by `/`; this is the only field the
round trip changes. -/
def fixPath (u : Url) : Url :=
  { u with path := if u.path = [] then ['/'] else u.path }

theorem digit_isPortChar {c : Char} (h : c.isDigit = true) : isPortChar c = true := by
  have h1 : c ≠ '/' := fun hc => by subst hc; exact absurd h (by decide)
  have h2 : c ≠ '?' := fun hc => by subst hc; exact absurd h (by decide)
  have h3 : c ≠ '#' := fun hc => by subst hc; exact absurd h (by decide)
  simp [isPortChar, h1, h2, h3]

theorem amp_not_mem_joinPair {p : Str × Str} (h1 : '&' ∉ p.1) (h2 : '&' ∉ p.2) :
    '&' ∉ joinPair p := by
  intro hm
  rcases List.mem_append.mp hm with h | h
  · exact h1 h
  · rcases List.mem_cons.mp h with h | h
    · exact absurd h (by decide)
    · exact h2 h

theorem hash_not_mem_joinQuery {q : List (Str × Str)}
    (h : ∀ p ∈ q, ('#' ∉ p.1) ∧ ('#' ∉ p.2)) : '#' ∉ joinQuery q := by
  intro hm
  rcases mem_intercalateC hm with h1 | ⟨part, hp, hc⟩
  · exact absurd h1 (by decide)
  · rcases List.mem_map.mp hp with ⟨p, hpq, rfl⟩
    rcases List.mem_append.mp hc with h2 | h2
    · exact (h p hpq).1 h2
    · rcases List.mem_cons.mp h2 with h2 | h2
      · exact absurd h2 (by decide)
      · exact (h p hpq).2 h2

theorem parsePair_joinPair {p : Str × Str} (h : '=' ∉ p.1) :
    parsePair (joinPair p) = p := by
  have hk : ∀ a ∈ p.1, (fun c => decide (c ≠ '=')) a = true := by
    intro a ha
    simp only [decide_eq_true_eq]
    exact fun hc => h (hc ▸ ha)
  have hb : (fun c => decide (c ≠ '=')) '=' = false := by decide
  unfold parsePair joinPair
  rw [takeWhile_append_cons hk hb, dropWhile_append_cons hk hb]
  rfl

theorem parseQuery_joinQuery {q : List (Str × Str)} (hq : q ≠ [])
    (h : ∀ p ∈ q, ('=' ∉ p.1) ∧ ('&' ∉ p.1) ∧ ('&' ∉ p.2)) :
    parseQuery (joinQuery q) = q := by
  unfold parseQuery joinQuery
  rw [splitOnC_intercalateC (by simpa using hq)
    (fun x hx => by
      rcases List.mem_map.mp hx with ⟨p, hp, rfl⟩
      exact amp_not_mem_joinPair (h p hp).2.1 (h p hp).2.2)]
  rw [List.filter_eq_self.mpr]
  · rw [List.map_map]
    have hcongr : List.map (parsePair ∘ joinPair) q = List.map id q :=
      List.map_congr_left (fun p hp => parsePair_joinPair (h p hp).1)
    rw [hcongr, List.map_id]
  · intro a ha
    rcases List.mem_map.mp ha with ⟨p, _, rfl⟩
    simp [joinPair]

theorem parsePathQF_spec {pt : Str} {q : List (Str × Str)} {frag : Str}
    (hptc : ∀ c ∈ pt, isPathChar c = true)
    (hq : ∀ p ∈ q, ('=' ∉ p.1) ∧ ('&' ∉ p.1) ∧ ('#' ∉ p.1) ∧ ('&' ∉ p.2) ∧ ('#' ∉ p.2)) :
    parsePathQF ('/' :: (pt ++ ((if q = [] then [] else '?' :: joinQuery q)
        ++ (if frag = [] then [] else '#' :: frag))))
      = ('/' :: pt, (q, frag)) := by
  have hslash : isPathChar '/' = true := by decide
  have hqm : isPathChar '?' = false := by decide
  have hhash : isPathChar '#' = false := by decide
  have hnohash : '#' ∉ joinQuery q :=
    hash_not_mem_joinQuery (fun p hp => ⟨(hq p hp).2.2.1, (hq p hp).2.2.2.2⟩)
  have hqf_qmark : ∀ r : Str, parseQF ('?' :: r) =
      (parseQuery (r.takeWhile (fun c => c ≠ '#')),
       parseFrag (r.dropWhile (fun c => c ≠ '#'))) := fun _ => rfl
  have hqf_hash : ∀ f : Str, parseQF ('#' :: f) = ([], f) := fun _ => rfl
  have hqf_nil : parseQF [] = ([], []) := rfl
  have hfr_hash : ∀ f : Str, parseFrag ('#' :: f) = f := fun _ => rfl
  have hfr_nil : parseFrag [] = [] := rfl
  by_cases hqe : q = []
  · by_cases hfe : frag = []
    · rw [if_pos hqe, if_pos hfe, List.nil_append, List.append_nil]
      simp only [parsePathQF]
      rw [List.takeWhile_cons_of_pos hslash, takeWhile_all hptc,
        List.dropWhile_cons_of_pos hslash, dropWhile_all hptc, hqf_nil, hqe, hfe]
    · rw [if_pos hqe, if_neg hfe, List.nil_append]
      simp only [parsePathQF]
      rw [List.takeWhile_cons_of_pos hslash, takeWhile_append_cons hptc hhash,
        List.dropWhile_cons_of_pos hslash, dropWhile_append_cons hptc hhash,
        hqf_hash, hqe]
  · have hqj : parseQuery (joinQuery q) = q :=
      parseQuery_joinQuery hqe
        (fun p hp => ⟨(hq p hp).1, (hq p hp).2.1, (hq p hp).2.2.2.1⟩)
    have hjq : ∀ a ∈ joinQuery q, (fun c => decide (c ≠ '#')) a = true := by
      intro a ha
      simp only [decide_eq_true_eq]
      exact fun hc => hnohash (hc ▸ ha)
    have hbh : (fun c => decide (c ≠ '#')) '#' = false := by decide
    by_cases hfe : frag = []
    · rw [if_neg hqe, if_pos hfe, List.append_nil]
      simp only [parsePathQF]
      rw [List.takeWhile_cons_of_pos hslash, takeWhile_append_cons hptc hqm,
        List.dropWhile_cons_of_pos hslash, dropWhile_append_cons hptc hqm,
        hqf_qmark, takeWhile_all hjq, dropWhile_all hjq, hqj, hfr_nil, hfe]
    · rw [if_neg hqe, if_neg hfe, List.cons_append]
      simp only [parsePathQF]
      rw [List.takeWhile_cons_of_pos hslash, takeWhile_append_cons hptc hqm,
        List.dropWhile_cons_of_pos hslash, dropWhile_append_cons hptc hqm,
        hqf_qmark, takeWhile_append_cons hjq hbh, dropWhile_append_cons hjq hbh,
        hqj, hfr_hash]

theorem parseHost_noport {scheme host : Str} (hne : host ≠ []) (x : Str) :
    parseHost scheme host ('/' :: x) = parseWithPort scheme host [] ('/' :: x) := by
  unfold parseHost
  rw [if_neg hne]
  rfl

theorem parseHost_port {scheme host : Str} (hne : host ≠ []) (r : Str) :
    parseHost scheme host (':' :: r)
      = parseWithPort scheme host (r.takeWhile isPortChar) (r.dropWhile isPortChar) := by
  unfold parseHost
  rw [if_neg hne]
  rfl

theorem parseUrl_concrete {s r2 : Str}
    (h : s.dropWhile (fun c => c ≠ ':') = ':' :: '/' :: '/' :: r2) :
    parseUrl s = if s.takeWhile (fun c => c ≠ ':') = [] then none
      else parseHost (s.takeWhile (fun c => c ≠ ':'))
        (r2.takeWhile isHostChar) (r2.dropWhile isHostChar) := by
  unfold parseUrl
  rw [h]
  rfl

theorem parse_serializeUrl {u : Url} (wf : UrlWF u) :
    parseUrl (serializeUrl u) = some (fixPath u) := by
  obtain ⟨pt, hpt, hptc⟩ : ∃ pt, (if u.path = [] then ['/'] else u.path) = '/' :: pt
      ∧ ∀ c ∈ pt, isPathChar c = true := by
    rcases wf.path_shape with h | ⟨t, ht⟩
    · exact ⟨[], by rw [if_pos h], by simp⟩
    · refine ⟨t, by rw [if_neg (by simp [ht]), ht], fun c hc => wf.path_chars c ?_⟩
      rw [ht]
      exact List.mem_cons_of_mem _ hc
  have hsch : ∀ a ∈ u.scheme, (fun c => decide (c ≠ ':')) a = true := by
    intro a ha
    simp only [decide_eq_true_eq]
    exact fun hc => wf.scheme_chars (hc ▸ ha)
  have hcolon : (fun c => decide (c ≠ ':')) ':' = false := by decide
  have hhostslash : isHostChar '/' = false := by decide
  have hhostcolon : isHostChar ':' = false := by decide
  set QF : Str := (if u.query = [] then [] else '?' :: joinQuery u.query)
      ++ (if u.frag = [] then [] else '#' :: u.frag) with hQF
  set T : Str := u.host ++ ((if u.port = [] then [] else ':' :: u.port)
      ++ ('/' :: (pt ++ QF))) with hT
  have hser : serializeUrl u = u.scheme ++ ':' :: '/' :: '/' :: T := by
    rw [hT, hQF, serializeUrl, hpt]
    simp only [List.append_assoc, List.cons_append]
  have hdrop : (serializeUrl u).dropWhile (fun c => c ≠ ':') = ':' :: '/' :: '/' :: T := by
    rw [hser]
    exact dropWhile_append_cons hsch hcolon
  have htake : (serializeUrl u).takeWhile (fun c => c ≠ ':') = u.scheme := by
    rw [hser]
    exact takeWhile_append_cons hsch hcolon
  rw [parseUrl_concrete hdrop, htake, if_neg wf.scheme_ne, hT]
  by_cases hp : u.port = []
  · rw [if_pos hp, List.nil_append,
      takeWhile_append_cons wf.host_chars hhostslash,
      dropWhile_append_cons wf.host_chars hhostslash,
      parseHost_noport wf.host_ne]
    unfold parseWithPort
    rw [if_pos (by simp), hQF, parsePathQF_spec hptc wf.query_wf]
    simp [fixPath, wf.scheme_lower, wf.host_lower, hp, hpt]
  · rw [if_neg hp, List.cons_append,
      takeWhile_append_cons wf.host_chars hhostcolon,
      dropWhile_append_cons wf.host_chars hhostcolon,
      parseHost_port wf.host_ne]
    have hpd : ∀ a ∈ u.port, isPortChar a = true :=
      fun a ha => digit_isPortChar (wf.port_digits a ha)
    have hps : isPortChar '/' = false := by decide
    rw [takeWhile_append_cons hpd hps, dropWhile_append_cons hpd hps]
    unfold parseWithPort
    rw [if_pos (List.all_eq_true.mpr (fun a ha => wf.port_digits a ha)),
      hQF, parsePathQF_spec hptc wf.query_wf]
    simp [fixPath, wf.scheme_lower, wf.host_lower, hpt]

/-! ## Well-formedness of parsed URLs -/

theorem dropWhile_head_false {p : Char → Bool} {l : Str} {c : Char} {cs : Str}
    (h : l.dropWhile p = c :: cs) : p c = false := by
  have hne : l.dropWhile p ≠ [] := by simp [h]
  have := List.head_dropWhile_not p l hne
  simpa [h] using this

theorem parseVal_subset {r : Str} {c : Char} (h : c ∈ parseVal r) : c ∈ r := by
  unfold parseVal at h
  split at h
  · exact List.mem_cons_of_mem _ h
  · simp at h

theorem parseQuery_wf {qs : Str} (hq : '#' ∉ qs) :
    ∀ p ∈ parseQuery qs,
      ('=' ∉ p.1) ∧ ('&' ∉ p.1) ∧ ('#' ∉ p.1) ∧ ('&' ∉ p.2) ∧ ('#' ∉ p.2) := by
  intro p hp
  unfold parseQuery at hp
  rcases List.mem_map.mp hp with ⟨part, hpart, rfl⟩
  have hpart' : part ∈ splitOnC '&' qs := List.mem_of_mem_filter hpart
  have hchars : ∀ c ∈ part, c ∈ qs ∧ c ≠ '&' :=
    fun c hc => mem_splitOnC_chars hpart' hc
  have hkey : ∀ c ∈ (parsePair part).1, c ∈ part := by
    intro c hc
    exact (List.takeWhile_sublist _).subset hc
  have hval : ∀ c ∈ (parsePair part).2, c ∈ part := by
    intro c hc
    exact (List.dropWhile_sublist _).subset (parseVal_subset hc)
  refine ⟨?_, ?_, ?_, ?_, ?_⟩
  · intro hm
    have := List.mem_takeWhile_imp hm
    simp at this
  · exact fun hm => (hchars _ (hkey _ hm)).2 rfl
  · exact fun hm => hq (hchars _ (hkey _ hm)).1
  · exact fun hm => (hchars _ (hval _ hm)).2 rfl
  · exact fun hm => hq (hchars _ (hval _ hm)).1

theorem lowerStr_ne_mem {s : Str} {r : Char} (hr : ∀ c, lc c = r → c = r)
    (h : r ∉ s) : r ∉ lowerStr s := by
  intro hm
  rcases List.mem_map.mp hm with ⟨c, hc, hlc⟩
  exact h ((hr c hlc) ▸ hc)

theorem path_head_shape {r4 : Str}
    (h : r4 = [] ∨ ∃ c cs, r4 = c :: cs ∧ (c = '/' ∨ c = '?' ∨ c = '#')) :
    r4.takeWhile isPathChar = [] ∨ ∃ t, r4.takeWhile isPathChar = '/' :: t := by
  rcases h with h | ⟨c, cs, rfl, hc⟩
  · subst h; simp
  · rcases hc with rfl | rfl | rfl
    · exact Or.inr ⟨cs.takeWhile isPathChar, List.takeWhile_cons_of_pos (by decide)⟩
    · exact Or.inl (List.takeWhile_cons_of_neg (by decide))
    · exact Or.inl (List.takeWhile_cons_of_neg (by decide))

theorem parseQF_query_wf (r5 : Str) :
    ∀ p ∈ (parseQF r5).1,
      ('=' ∉ p.1) ∧ ('&' ∉ p.1) ∧ ('#' ∉ p.1) ∧ ('&' ∉ p.2) ∧ ('#' ∉ p.2) := by
  intro p hp
  unfold parseQF at hp
  split at hp
  · refine parseQuery_wf ?_ p hp
    intro hm
    have := List.mem_takeWhile_imp hm
    simp at this
  · simp at hp
  · simp at hp

theorem not_isHostChar_cases {c : Char} (h : isHostChar c = false) :
    c = '/' ∨ c = '?' ∨ c = '#' ∨ c = ':' := by
  by_contra hc
  push_neg at hc
  simp [isHostChar, hc.1, hc.2.1, hc.2.2.1, hc.2.2.2] at h

theorem not_isPortChar_cases {c : Char} (h : isPortChar c = false) :
    c = '/' ∨ c = '?' ∨ c = '#' := by
  by_contra hc
  push_neg at hc
  simp [isPortChar, hc.1, hc.2.1, hc.2.2] at h

theorem parseWithPort_wf {scheme host port r4 : Str} {u : Url}
    (hs : scheme ≠ []) (hsc : ':' ∉ scheme)
    (hh : host ≠ []) (hhc : ∀ c ∈ host, isHostChar c = true)
    (hr4 : r4 = [] ∨ ∃ c cs, r4 = c :: cs ∧ (c = '/' ∨ c = '?' ∨ c = '#'))
    (h : parseWithPort scheme host port r4 = some u) : UrlWF u := by
  unfold parseWithPort at h
  split at h
  case isTrue hdig =>
    injection h with h
    subst h
    constructor
    · simpa using hs
    · exact lowerStr_ne_mem (fun c hc => lc_eq_colon.mp hc) hsc
    · exact lowerStr_lowerStr _
    · simpa using hh
    · intro c hc
      rcases List.mem_map.mp hc with ⟨d, hd, rfl⟩
      rw [isHostChar_lc]
      exact hhc d hd
    · exact lowerStr_lowerStr _
    · exact fun c hc => List.all_eq_true.mp hdig c hc
    · exact path_head_shape hr4
    · exact fun c hc => List.mem_takeWhile_imp hc
    · exact parseQF_query_wf _
  case isFalse => exact absurd h (by simp)

theorem parseUrl_wf {s : Str} {u : Url} (h : parseUrl s = some u) : UrlWF u := by
  unfold parseUrl at h
  split at h
  case h_2 => exact absurd h (by simp)
  case h_1 r2 heq =>
    by_cases hts : s.takeWhile (fun c => c ≠ ':') = []
    · rw [if_pos hts] at h
      exact absurd h (by simp)
    · rw [if_neg hts] at h
      unfold parseHost at h
      by_cases hhe : r2.takeWhile isHostChar = []
      · rw [if_pos hhe] at h
        exact absurd h (by simp)
      · rw [if_neg hhe] at h
        have hsc : ':' ∉ s.takeWhile (fun c => c ≠ ':') := by
          intro hm
          have := List.mem_takeWhile_imp hm
          simp at this
        have hhc : ∀ c ∈ r2.takeWhile isHostChar, isHostChar c = true :=
          fun c hc => List.mem_takeWhile_imp hc
        split at h
        next r heq3 =>
          refine parseWithPort_wf hts hsc hhe hhc ?_ h
          rcases hd : r.dropWhile isPortChar with _ | ⟨c, cs⟩
          · exact Or.inl rfl
          · exact Or.inr ⟨c, cs, rfl, not_isPortChar_cases (dropWhile_head_false hd)⟩
        next hne =>
          refine parseWithPort_wf hts hsc hhe hhc ?_ h
          rcases hd : r2.dropWhile isHostChar with _ | ⟨c, cs⟩
          · exact Or.inl rfl
          · rcases not_isHostChar_cases (dropWhile_head_false hd) with h1 | h1 | h1 | h1
            · exact Or.inr ⟨c, cs, rfl, Or.inl h1⟩
            · exact Or.inr ⟨c, cs, rfl, Or.inr (Or.inl h1)⟩
            · exact Or.inr ⟨c, cs, rfl, Or.inr (Or.inr h1)⟩
            · exact absurd (h1 ▸ hd) (hne cs)

@[simp] theorem lowerStr_cons (c : Char) (l : Str) :
    lowerStr (c :: l) = lc c :: lowerStr l := rfl

theorem isPrefix_stripTrailingSlashes (p : Str) :
    (stripTrailingSlashes p).IsPrefix p := by
  unfold stripTrailingSlashes
  have hsuf : (p.reverse.dropWhile (fun c => c = '/')).IsSuffix p.reverse :=
    List.dropWhile_suffix _
  have := List.reverse_prefix.mpr hsuf
  simpa using this

theorem prefix_shape {p l : Str} {t : Str} (hp : p = '/' :: t)
    (h : l.IsPrefix p) : l = [] ∨ ∃ t', l = '/' :: t' := by
  subst hp
  rcases h with ⟨k, hk⟩
  cases l with
  | nil => exact Or.inl rfl
  | cons c l' =>
    rw [List.cons_append] at hk
    injection hk with h1 h2
    exact Or.inr ⟨l', by rw [h1]⟩

theorem removeLanguagePrefix_shape {p : Str} (h : p = [] ∨ ∃ t, p = '/' :: t) :
    removeLanguagePrefix p = [] ∨ ∃ t, removeLanguagePrefix p = '/' :: t := by
  unfold removeLanguagePrefix
  split
  · exact h
  · split
    · exact Or.inr ⟨_, rfl⟩
    · exact h

theorem mem_removeLanguagePrefix {p : Str} {c : Char}
    (h : c ∈ removeLanguagePrefix p) : c ∈ p ∨ c = '/' := by
  unfold removeLanguagePrefix at h
  split at h
  · exact Or.inl h
  next first rest heq =>
    split at h
    · rcases List.mem_cons.mp h with h1 | h1
      · exact Or.inr h1
      · rcases mem_intercalateC h1 with h2 | ⟨part, hpart, hc⟩
        · exact Or.inr h2
        · have hpart2 : part ∈ splitOnC '/' p := by
            have : part ∈ (splitOnC '/' p).filter (fun x => x ≠ []) := by
              rw [heq]
              exact List.mem_cons_of_mem _ hpart
            exact List.mem_of_mem_filter this
          exact Or.inl (mem_splitOnC_chars hpart2 hc).1
    · exact Or.inl h

theorem normCore_shape {u : Url} (h : u.path = [] ∨ ∃ t, u.path = '/' :: t) :
    (normCore u).path = [] ∨ ∃ t, (normCore u).path = '/' :: t := by
  show stripTrailingSlashes (removeLanguagePrefix u.path) = [] ∨ _
  rcases removeLanguagePrefix_shape h with h1 | ⟨t, h1⟩
  · rw [h1]
    exact Or.inl rfl
  · exact prefix_shape h1 (isPrefix_stripTrailingSlashes _)

theorem normCore_wf {u : Url} (wf : UrlWF u) : UrlWF (normCore u) := by
  constructor
  · exact wf.scheme_ne
  · exact wf.scheme_chars
  · exact wf.scheme_lower
  · exact wf.host_ne
  · exact wf.host_chars
  · exact wf.host_lower
  · exact wf.port_digits
  · exact normCore_shape wf.path_shape
  · intro c hc
    have hc2 := (isPrefix_stripTrailingSlashes _).sublist.subset hc
    rcases mem_removeLanguagePrefix hc2 with h1 | rfl
    · exact wf.path_chars c h1
    · decide
  · intro p hp
    have : p ∈ u.query := (List.perm_insertionSort paramLe u.query).subset hp
    exact wf.query_wf p this

theorem lowerPair_def (p : Str × Str) :
    (fun p : Str × Str => (lowerStr p.1, lowerStr p.2)) p
      = (lowerStr p.1, lowerStr p.2) := rfl

theorem mapLowerUrl_wf {u : Url} (wf : UrlWF u) : UrlWF (mapLowerUrl u) := by
  constructor
  · simpa [mapLowerUrl] using wf.scheme_ne
  · exact lowerStr_ne_mem (fun c hc => lc_eq_colon.mp hc) wf.scheme_chars
  · exact lowerStr_lowerStr _
  · simpa [mapLowerUrl] using wf.host_ne
  · intro c hc
    rcases List.mem_map.mp hc with ⟨d, hd, rfl⟩
    rw [isHostChar_lc]
    exact wf.host_chars d hd
  · exact lowerStr_lowerStr _
  · intro c hc
    rcases List.mem_map.mp hc with ⟨d, hd, rfl⟩
    rw [isDigit_lc]
    exact wf.port_digits d hd
  · rcases wf.path_shape with h | ⟨t, h⟩
    · simp [mapLowerUrl, h, lowerStr]
    · refine Or.inr ⟨lowerStr t, ?_⟩
      show lowerStr u.path = _
      rw [h, lowerStr_cons, show lc '/' = '/' from by decide]
  · intro c hc
    rcases List.mem_map.mp hc with ⟨d, hd, rfl⟩
    rw [isPathChar_lc]
    exact wf.path_chars d hd
  · intro p hp
    rcases List.mem_map.mp hp with ⟨d, hd, rfl⟩
    have hw := wf.query_wf d hd
    refine ⟨?_, ?_, ?_, ?_, ?_⟩
    · exact lowerStr_ne_mem (fun c hc => lc_eq_eqch.mp hc) hw.1
    · exact lowerStr_ne_mem (fun c hc => lc_eq_amp.mp hc) hw.2.1
    · exact lowerStr_ne_mem (fun c hc => lc_eq_hash.mp hc) hw.2.2.1
    · exact lowerStr_ne_mem (fun c hc => lc_eq_amp.mp hc) hw.2.2.2.1
    · exact lowerStr_ne_mem (fun c hc => lc_eq_hash.mp hc) hw.2.2.2.2

@[simp] theorem lowerStr_nil : lowerStr [] = [] := rfl

theorem lowerStr_joinPair (p : Str × Str) :
    List.map lc (joinPair p) = joinPair (lowerStr p.1, lowerStr p.2) := by
  show lowerStr _ = _
  rw [joinPair, lowerStr_append, lowerStr_cons, show lc '=' = '=' from by decide]
  rfl

theorem lowerStr_joinQuery (q : List (Str × Str)) :
    joinQuery (q.map (fun p => (lowerStr p.1, lowerStr p.2))) = lowerStr (joinQuery q) := by
  have hmaps : (q.map (fun p => (lowerStr p.1, lowerStr p.2))).map joinPair
      = (q.map joinPair).map (List.map lc) := by
    rw [List.map_map, List.map_map]
    exact List.map_congr_left (fun p _ => (lowerStr_joinPair p).symm)
  unfold joinQuery
  rw [hmaps, intercalateC_map (by decide)]
  rfl

theorem serializeUrl_mapLower (u : Url) :
    serializeUrl (mapLowerUrl u) = lowerStr (serializeUrl u) := by
  unfold serializeUrl mapLowerUrl
  simp only [lowerStr_append, lowerStr_cons, lowerStr_nil, apply_ite lowerStr,
    lowerStr_eq_nil, List.map_eq_nil_iff, lowerStr_joinQuery,
    show lc ':' = ':' from by decide, show lc '/' = '/' from by decide,
    show lc '?' = '?' from by decide, show lc '#' = '#' from by decide]

theorem normalizeUrl_some {s : Str} {u : Url} (h : parseUrl s = some u) :
    normalizeUrl s = some (serializeUrl (mapLowerUrl (normCore u))) := by
  unfold normalizeUrl
  rw [h]
  simp [serializeUrl_mapLower]

theorem parse_norm {s : Str} {u : Url} (h : parseUrl s = some u) :
    parseUrl (serializeUrl (mapLowerUrl (normCore u)))
      = some (fixPath (mapLowerUrl (normCore u))) :=
  parse_serializeUrl (mapLowerUrl_wf (normCore_wf (parseUrl_wf h)))

theorem getBaseDomain_eq {s : Str} {u : Url} (h : parseUrl s = some u) :
    getBaseDomain s = u.host := by
  unfold getBaseDomain
  rw [h]

/-- Normalisation never changes the hostname: the domain key the crawler
compares is stable under `normalizeUrl`. -/
theorem getBaseDomain_normalizeUrl {s v : Str} (h : normalizeUrl s = some v) :
    getBaseDomain v = getBaseDomain s := by
  obtain ⟨u, hu, hv⟩ : ∃ u, parseUrl s = some u
      ∧ v = lowerStr (serializeUrl (normCore u)) := by
    unfold normalizeUrl at h
    cases hp : parseUrl s with
    | none => rw [hp] at h; simp at h
    | some u =>
      rw [hp] at h
      simp only [Option.map_some', Option.some.injEq] at h
      exact ⟨u, rfl, h.symm⟩
  subst hv
  rw [← serializeUrl_mapLower, getBaseDomain_eq (parse_norm hu), getBaseDomain_eq hu]
  show lowerStr u.host = u.host
  exact (parseUrl_wf hu).host_lower

/-! ## The query-sort order -/

theorem lexLe_total : ∀ a b : Str, lexLe a b = true ∨ lexLe b a = true
  | [], _ => Or.inl rfl
  | _ :: _, [] => Or.inr rfl
  | a :: as, b :: bs => by
    unfold lexLe
    rcases lt_trichotomy a b with h | h | h
    · left
      simp [h]
    · subst h
      simp only [lt_irrefl, if_false]
      exact lexLe_total as bs
    · right
      simp [h]

theorem lexLe_trans : ∀ a b c : Str, lexLe a b = true → lexLe b c = true →
    lexLe a c = true
  | [], _, _, _, _ => rfl
  | _ :: _, [], _, h1, _ => by simp [lexLe] at h1
  | _ :: _, _ :: _, [], _, h2 => by simp [lexLe] at h2
  | a :: as, b :: bs, c :: cs, h1, h2 => by
    unfold lexLe at h1 h2 ⊢
    rcases lt_trichotomy a b with hab | hab | hab
    · rcases lt_trichotomy b c with hbc | hbc | hbc
      · simp [lt_trans hab hbc]
      · subst hbc
        simp [hab]
      · rw [if_neg (asymm hbc), if_pos hbc] at h2
        exact absurd h2 (by simp)
    · subst hab
      rcases lt_trichotomy a c with hac | hac | hac
      · simp [hac]
      · subst hac
        simp only [lt_irrefl, if_false] at h1 h2 ⊢
        exact lexLe_trans as bs cs h1 h2
      · rw [if_neg (asymm hac), if_pos hac] at h2
        exact absurd h2 (by simp)
    · rw [if_neg (asymm hab), if_pos hab] at h1
      exact absurd h1 (by simp)

theorem lexLe_antisymm : ∀ a b : Str, lexLe a b = true → lexLe b a = true → a = b
  | [], [], _, _ => rfl
  | [], _ :: _, _, h2 => by simp [lexLe] at h2
  | _ :: _, [], h1, _ => by simp [lexLe] at h1
  | a :: as, b :: bs, h1, h2 => by
    unfold lexLe at h1 h2
    rcases lt_trichotomy a b with hab | hab | hab
    · rw [if_neg (asymm hab), if_pos hab] at h2
      exact absurd h2 (by simp)
    · subst hab
      simp only [lt_irrefl, if_false] at h1 h2
      rw [lexLe_antisymm as bs h1 h2]
    · rw [if_neg (asymm hab), if_pos hab] at h1
      exact absurd h1 (by simp)

instance : IsTotal (Str × Str) paramLe :=
  ⟨fun a b => lexLe_total (lowerStr a.1) (lowerStr b.1)⟩

instance : IsTrans (Str × Str) paramLe :=
  ⟨fun _ _ _ h1 h2 => lexLe_trans _ _ _ h1 h2⟩

theorem sortParams_sorted (q : List (Str × Str)) :
    List.Sorted paramLe (sortParams q) :=
  List.sorted_insertionSort paramLe q

theorem sortParams_of_sorted {q : List (Str × Str)}
    (h : List.Sorted paramLe q) : sortParams q = q :=
  h.insertionSort_eq

theorem paramLe_lowerPair {a b : Str × Str} :
    paramLe (lowerStr a.1, lowerStr a.2) (lowerStr b.1, lowerStr b.2) ↔ paramLe a b := by
  simp [paramLe, lowerStr_lowerStr]

theorem sortParams_mapLower_of_sorted {q : List (Str × Str)}
    (h : List.Sorted paramLe q) :
    sortParams (q.map (fun p => (lowerStr p.1, lowerStr p.2)))
      = q.map (fun p => (lowerStr p.1, lowerStr p.2)) := by
  refine sortParams_of_sorted ?_
  rw [List.Sorted, List.pairwise_map]
  exact h.imp (fun hab => paramLe_lowerPair.mpr hab)

/-! ## Idempotence machinery -/

theorem dropWhile_dropWhile (p : Char → Bool) (l : Str) :
    (l.dropWhile p).dropWhile p = l.dropWhile p := by
  cases hd : l.dropWhile p with
  | nil => rfl
  | cons c cs => exact List.dropWhile_cons_of_neg (by simp [dropWhile_head_false hd])

theorem strip_strip (p : Str) :
    stripTrailingSlashes (stripTrailingSlashes p) = stripTrailingSlashes p := by
  unfold stripTrailingSlashes
  rw [List.reverse_reverse, dropWhile_dropWhile]

theorem strip_lowerStr (p : Str) :
    stripTrailingSlashes (lowerStr p) = lowerStr (stripTrailingSlashes p) := by
  unfold stripTrailingSlashes
  show ((p.map lc).reverse.dropWhile (fun c => c = '/')).reverse
      = ((p.reverse.dropWhile (fun c => c = '/')).reverse).map lc
  rw [← List.map_reverse, List.dropWhile_map, ← List.map_reverse]
  congr 1
  refine congrArg _ (congrFun (congrArg _ ?_) _)
  funext c
  simp [Function.comp]

/-- Whether `removeLanguagePrefix` would strip a segment from this path. -/
def hasLangPrefix (p : Str) : Bool :=
  match (splitOnC '/' p).filter (fun x => x ≠ []) with
  | [] => false
  | first :: _ => languageCodes.contains (lowerStr first)

theorem removeLanguagePrefix_of_not {p : Str} (h : hasLangPrefix p = false) :
    removeLanguagePrefix p = p := by
  unfold hasLangPrefix at h
  unfold removeLanguagePrefix
  rcases hsc : (splitOnC '/' p).filter (fun x => x ≠ []) with _ | ⟨first, rest⟩
  · rw [hsc] at h ⊢
  · rw [hsc] at h ⊢
    have h' : languageCodes.contains (lowerStr first) = false := h
    exact if_neg (by simpa using h')

theorem Url.ext2 {a b : Url} (h1 : a.scheme = b.scheme) (h2 : a.host = b.host)
    (h3 : a.port = b.port) (h4 : a.path = b.path) (h5 : a.query = b.query)
    (h6 : a.frag = b.frag) : a = b := by
  cases a
  cases b
  simp_all

theorem mapLowerUrl_idem (u : Url) : mapLowerUrl (mapLowerUrl u) = mapLowerUrl u := by
  refine Url.ext2 ?_ ?_ ?_ ?_ ?_ ?_ <;>
    simp [mapLowerUrl, lowerStr_lowerStr, List.map_map, Function.comp_def]

theorem normalizeUrl_inv {s v : Str} (h : normalizeUrl s = some v) :
    ∃ u, parseUrl s = some u ∧ v = serializeUrl (mapLowerUrl (normCore u)) := by
  unfold normalizeUrl at h
  cases hp : parseUrl s with
  | none => rw [hp] at h; simp at h
  | some u =>
    rw [hp] at h
    simp only [Option.map_some', Option.some.injEq] at h
    exact ⟨u, rfl, by rw [← h, serializeUrl_mapLower]⟩

theorem normCore_fixPath_mapLower {u : Url}
    (hlang : hasLangPrefix ((fixPath (mapLowerUrl (normCore u))).path) = false) :
    normCore (fixPath (mapLowerUrl (normCore u))) = mapLowerUrl (normCore u) := by
  refine Url.ext2 rfl rfl rfl ?_ ?_ rfl
  · show stripTrailingSlashes
        (removeLanguagePrefix (fixPath (mapLowerUrl (normCore u))).path)
      = (mapLowerUrl (normCore u)).path
    by_cases hm : (mapLowerUrl (normCore u)).path = []
    · rw [show (fixPath (mapLowerUrl (normCore u))).path = ['/'] by
        simp [fixPath, hm]] at hlang ⊢
      rw [show removeLanguagePrefix ['/'] = ['/'] from by decide,
        show stripTrailingSlashes ['/'] = [] from by decide, hm]
    · rw [show (fixPath (mapLowerUrl (normCore u))).path
          = (mapLowerUrl (normCore u)).path by simp [fixPath, hm]] at hlang ⊢
      rw [removeLanguagePrefix_of_not hlang]
      show stripTrailingSlashes
          (lowerStr (stripTrailingSlashes (removeLanguagePrefix u.path)))
        = lowerStr (stripTrailingSlashes (removeLanguagePrefix u.path))
      rw [strip_lowerStr, strip_strip]
  · show sortParams ((sortParams u.query).map (fun p => (lowerStr p.1, lowerStr p.2)))
      = (sortParams u.query).map (fun p => (lowerStr p.1, lowerStr p.2))
    exact sortParams_mapLower_of_sorted (sortParams_sorted _)

/-- `normalizeUrl` is idempotent on every normalised URL whose path does
not still begin with a language-code segment (a second application strips
such a segment again). -/
theorem normalizeUrl_idem_of {s v : Str} {w : Url} (h : normalizeUrl s = some v)
    (hw : parseUrl v = some w) (hlang : hasLangPrefix w.path = false) :
    normalizeUrl v = some v := by
  obtain ⟨u, hu, hv⟩ := normalizeUrl_inv h
  subst hv
  have hpv := parse_norm hu
  have hwz : w = fixPath (mapLowerUrl (normCore u)) := by
    have := hpv.symm.trans hw
    injection this with h2
    exact h2.symm
  subst hwz
  rw [normalizeUrl_some hpv, normCore_fixPath_mapLower hlang, mapLowerUrl_idem]

/-! ## Normalisation invariances -/

/-- URLs that differ only in fragment normalise identically. -/
theorem norm_frag_invariant {s1 s2 : Str} {u : Url} {f : Str}
    (h1 : parseUrl s1 = some u) (h2 : parseUrl s2 = some { u with frag := f }) :
    normalizeUrl s1 = normalizeUrl s2 := by
  rw [normalizeUrl_some h1, normalizeUrl_some h2]
  rfl

theorem dropWhile_append_all {p : Char → Bool} {l1 l2 : Str}
    (h : ∀ a ∈ l1, p a = true) :
    List.dropWhile p (l1 ++ l2) = List.dropWhile p l2 := by
  induction l1 with
  | nil => rfl
  | cons a l ih =>
    have ha := h a (List.mem_cons_self a l)
    simp [List.dropWhile_cons, ha, ih (fun x hx => h x (List.mem_cons_of_mem a hx))]

theorem strip_append_replicate (p : Str) (n : Nat) :
    stripTrailingSlashes (p ++ List.replicate n '/') = stripTrailingSlashes p := by
  unfold stripTrailingSlashes
  rw [List.reverse_append, List.reverse_replicate,
    dropWhile_append_all (fun a ha => by simp [List.eq_of_mem_replicate ha])]

theorem strip_remLang_append_rep (p : Str) (n : Nat) :
    stripTrailingSlashes (removeLanguagePrefix (p ++ List.replicate n '/'))
      = stripTrailingSlashes (removeLanguagePrefix p) := by
  unfold removeLanguagePrefix
  rw [splitOnC_filter_replicate]
  rcases hsc : (splitOnC '/' p).filter (fun x => x ≠ []) with _ | ⟨first, rest⟩
  · rw [hsc]
    exact strip_append_replicate p n
  · rw [hsc]
    show stripTrailingSlashes (if languageCodes.contains (lowerStr first) = true
        then '/' :: intercalateC '/' rest else p ++ List.replicate n '/')
      = stripTrailingSlashes (if languageCodes.contains (lowerStr first) = true
        then '/' :: intercalateC '/' rest else p)
    by_cases hl : languageCodes.contains (lowerStr first) = true
    · rw [if_pos hl, if_pos hl]
    · rw [if_neg hl, if_neg hl]
      exact strip_append_replicate p n

/-- URLs that differ only in trailing slashes normalise identically. -/
theorem norm_trailing_invariant {s1 s2 : Str} {u : Url} {n : Nat}
    (h1 : parseUrl s1 = some u)
    (h2 : parseUrl s2 = some { u with path := u.path ++ List.replicate n '/' }) :
    normalizeUrl s1 = normalizeUrl s2 := by
  rw [normalizeUrl_some h1, normalizeUrl_some h2]
  have : normCore { u with path := u.path ++ List.replicate n '/' } = normCore u :=
    Url.ext2 rfl rfl rfl (strip_remLang_append_rep u.path n) rfl rfl
  rw [this]

theorem remLang_lower (p : Str) :
    removeLanguagePrefix (lowerStr p) = lowerStr (removeLanguagePrefix p) := by
  have hsplit : splitOnC '/' (lowerStr p) = (splitOnC '/' p).map (List.map lc) := by
    unfold splitOnC
    rw [show lowerStr p = p.map lc from rfl, splitOnCA_map (fun c => lc_eq_slash) p]
    simp
  have hfilter : ((splitOnC '/' p).map (List.map lc)).filter (fun x => x ≠ [])
      = ((splitOnC '/' p).filter (fun x => x ≠ [])).map (List.map lc) := by
    rw [List.filter_map]
    refine congrArg _ (List.filter_congr ?_)
    intro x _
    simp
  unfold removeLanguagePrefix
  rw [hsplit, hfilter]
  rcases hsc : (splitOnC '/' p).filter (fun x => x ≠ []) with _ | ⟨first, rest⟩
  · rw [hsc]
    rfl
  · rw [hsc]
    show (if languageCodes.contains (lowerStr (List.map lc first)) = true
        then '/' :: intercalateC '/' (rest.map (List.map lc)) else lowerStr p)
      = lowerStr (if languageCodes.contains (lowerStr first) = true
        then '/' :: intercalateC '/' rest else p)
    rw [show lowerStr (List.map lc first) = lowerStr (lowerStr first) from rfl,
      lowerStr_lowerStr]
    by_cases hl : languageCodes.contains (lowerStr first) = true
    · rw [if_pos hl, if_pos hl, lowerStr_cons, show lc '/' = '/' from by decide,
        intercalateC_map (show lc '/' = '/' from by decide)]
      rfl
    · rw [if_neg hl, if_neg hl]

theorem sortParams_mapLower (q : List (Str × Str)) :
    (sortParams q).map (fun p => (lowerStr p.1, lowerStr p.2))
      = sortParams (q.map (fun p => (lowerStr p.1, lowerStr p.2))) :=
  List.map_insertionSort paramLe paramLe (fun p => (lowerStr p.1, lowerStr p.2)) q
    (fun _ _ _ _ => paramLe_lowerPair.symm)

/-- URLs whose parses agree after lower-casing every component normalise
identically: letter case never affects the key. -/
theorem norm_case_invariant {s1 s2 : Str} {u1 u2 : Url}
    (h1 : parseUrl s1 = some u1) (h2 : parseUrl s2 = some u2)
    (hcase : mapLowerUrl u1 = mapLowerUrl u2) :
    normalizeUrl s1 = normalizeUrl s2 := by
  rw [normalizeUrl_some h1, normalizeUrl_some h2]
  suffices h : mapLowerUrl (normCore u1) = mapLowerUrl (normCore u2) by rw [h]
  have hs : lowerStr u1.scheme = lowerStr u2.scheme := congrArg Url.scheme hcase
  have hh : lowerStr u1.host = lowerStr u2.host := congrArg Url.host hcase
  have hpo : lowerStr u1.port = lowerStr u2.port := congrArg Url.port hcase
  have hpa : lowerStr u1.path = lowerStr u2.path := congrArg Url.path hcase
  have hq : u1.query.map (fun p => (lowerStr p.1, lowerStr p.2))
      = u2.query.map (fun p => (lowerStr p.1, lowerStr p.2)) := congrArg Url.query hcase
  refine Url.ext2 hs hh hpo ?_ ?_ rfl
  · show lowerStr (stripTrailingSlashes (removeLanguagePrefix u1.path))
      = lowerStr (stripTrailingSlashes (removeLanguagePrefix u2.path))
    rw [← strip_lowerStr, ← strip_lowerStr, ← remLang_lower, ← remLang_lower, hpa]
  · show (sortParams u1.query).map (fun p => (lowerStr p.1, lowerStr p.2))
      = (sortParams u2.query).map (fun p => (lowerStr p.1, lowerStr p.2))
    rw [sortParams_mapLower, sortParams_mapLower, hq]

/-- Strengthening of `paramLe` that is antisymmetric on lists with
pairwise-distinct (lower-cased) keys. -/
def paramLeK (a b : Str × Str) : Prop :=
  paramLe a b ∧ (lowerStr a.1 = lowerStr b.1 → a = b)

instance : IsAntisymm (Str × Str) paramLeK :=
  ⟨fun _ _ h1 h2 => h1.2 (lexLe_antisymm _ _ h1.1 h2.1)⟩

def keyDistinct (q : List (Str × Str)) : Prop :=
  q.Pairwise (fun a b => lowerStr a.1 ≠ lowerStr b.1)

theorem keyDistinct_perm {q1 q2 : List (Str × Str)} (hp : q1.Perm q2)
    (hd : keyDistinct q1) : keyDistinct q2 :=
  (hp.pairwise_iff (fun hab he => hab he.symm)).mp hd

theorem sorted_paramLeK {q : List (Str × Str)} (hs : List.Sorted paramLe q)
    (hd : keyDistinct q) : List.Sorted paramLeK q :=
  (hs.and hd).imp (fun h => ⟨h.1, fun he => absurd he h.2⟩)

/-- For queries with pairwise-distinct keys, the stable sort is canonical:
any two permutations sort to the same list. -/
theorem sortParams_perm_eq {q1 q2 : List (Str × Str)} (hp : q1.Perm q2)
    (hd : keyDistinct q1) : sortParams q1 = sortParams q2 := by
  have hperm : (sortParams q1).Perm (sortParams q2) :=
    (List.perm_insertionSort paramLe q1).trans
      (hp.trans (List.perm_insertionSort paramLe q2).symm)
  refine List.eq_of_perm_of_sorted (r := paramLeK) hperm ?_ ?_
  · exact sorted_paramLeK (sortParams_sorted q1)
      (keyDistinct_perm (List.perm_insertionSort paramLe q1).symm hd)
  · exact sorted_paramLeK (sortParams_sorted q2)
      (keyDistinct_perm (List.perm_insertionSort paramLe q2).symm
        (keyDistinct_perm hp hd))

/-- URLs that differ only in the order of distinct-keyed query parameters
normalise identically. -/
theorem norm_queryperm_invariant {s1 s2 : Str} {u : Url} {q2 : List (Str × Str)}
    (h1 : parseUrl s1 = some u) (h2 : parseUrl s2 = some { u with query := q2 })
    (hperm : u.query.Perm q2) (hd : keyDistinct u.query) :
    normalizeUrl s1 = normalizeUrl s2 := by
  rw [normalizeUrl_some h1, normalizeUrl_some h2]
  suffices h : normCore { u with query := q2 } = normCore u by rw [h]
  exact Url.ext2 rfl rfl rfl rfl (sortParams_perm_eq hperm hd).symm rfl

/-! ## The locale-prefix clause -/

def partsOf (p : Str) : List Str := (splitOnC '/' p).filter (fun x => x ≠ [])

theorem partsOf_slash_cons (X : Str) : partsOf ('/' :: X) = partsOf X := by
  unfold partsOf splitOnC
  show List.filter _ ([] :: (splitOnCA '/' X).1 :: (splitOnCA '/' X).2) = _
  rw [List.filter_cons]
  simp

theorem partsOf_code_append {code p : Str} (hc : code ≠ []) (hslash : '/' ∉ code)
    (hp : p = [] ∨ ∃ t, p = '/' :: t) :
    partsOf (code ++ p) = code :: partsOf p := by
  rcases hp with rfl | ⟨t, rfl⟩
  · rw [List.append_nil]
    unfold partsOf splitOnC
    rw [splitOnCA_no_sep hslash]
    simp [hc, splitOnCA]
  · rw [partsOf_slash_cons]
    unfold partsOf splitOnC
    rw [splitOnCA_append_sep hslash]
    show List.filter _ (code :: (splitOnCA '/' t).1 :: (splitOnCA '/' t).2) = _
    rw [List.filter_cons]
    simp [hc]

theorem remLang_prefixed {code p : Str} (hcode : lowerStr code ∈ languageCodes)
    (hp : p = [] ∨ ∃ t, p = '/' :: t) :
    removeLanguagePrefix ('/' :: (code ++ p)) = '/' :: intercalateC '/' (partsOf p) := by
  have hc : code ≠ [] := by
    intro h
    rw [h] at hcode
    exact absurd hcode (by decide)
  have hslash : '/' ∉ code := by
    intro hm
    have h2 : '/' ∈ lowerStr code := List.mem_map.mpr ⟨'/', hm, by decide⟩
    exact absurd h2 ((by decide : ∀ x ∈ languageCodes, '/' ∉ x) _ hcode)
  have hparts : (splitOnC '/' ('/' :: (code ++ p))).filter (fun x => x ≠ [])
      = code :: partsOf p := by
    show partsOf ('/' :: (code ++ p)) = _
    rw [partsOf_slash_cons, partsOf_code_append hc hslash hp]
  unfold removeLanguagePrefix
  rw [hparts]
  show (if languageCodes.contains (lowerStr code) = true
      then '/' :: intercalateC '/' (partsOf p) else '/' :: (code ++ p)) = _
  rw [if_pos (by simpa using hcode)]

/-- Prefixing a locale segment onto a language-prefix-free, canonically
slashed path does not change the key. -/
theorem norm_locale_invariant {s1 s2 : Str} {u : Url} {code : Str}
    (h1 : parseUrl s1 = some u)
    (h2 : parseUrl s2 = some { u with path := '/' :: (code ++ u.path) })
    (hcode : lowerStr code ∈ languageCodes)
    (hnolang : hasLangPrefix u.path = false)
    (hcanon : u.path = [] ∨ u.path = '/' :: intercalateC '/' (partsOf u.path)) :
    normalizeUrl s1 = normalizeUrl s2 := by
  rw [normalizeUrl_some h1, normalizeUrl_some h2]
  suffices h : normCore { u with path := '/' :: (code ++ u.path) } = normCore u by rw [h]
  refine Url.ext2 rfl rfl rfl ?_ rfl rfl
  show stripTrailingSlashes (removeLanguagePrefix ('/' :: (code ++ u.path)))
    = stripTrailingSlashes (removeLanguagePrefix u.path)
  rw [remLang_prefixed hcode (parseUrl_wf h1).path_shape,
    removeLanguagePrefix_of_not hnolang]
  rcases hcanon with hc | hc
  · rw [hc]
    show stripTrailingSlashes ('/' :: intercalateC '/' (partsOf ([] : Str)))
      = stripTrailingSlashes []
    decide
  · rw [← hc]

/-! ## Crawl-loop lemmas -/

theorem pushLinks_spec (s : CrawlState) (links : List Str) :
    ∃ L : List Str,
      (pushLinks s links).visited = s.visited ++ L ∧
      (pushLinks s links).pending = s.pending ++ L ∧
      L.Nodup ∧ (∀ x ∈ L, x ∈ links ∧ x ∉ s.visited) ∧
      (pushLinks s links).products = s.products ∧
      (pushLinks s links).seenProductUrls = s.seenProductUrls ∧
      (pushLinks s links).fetched = s.fetched ∧
      (pushLinks s links).analyzed = s.analyzed := by
  induction links generalizing s with
  | nil => exact ⟨[], by simp [pushLinks], by simp [pushLinks], List.nodup_nil,
      by simp, rfl, rfl, rfl, rfl⟩
  | cons l ls ih =>
    have hstep : pushLinks s (l :: ls)
        = pushLinks (if l ∈ s.visited then s
            else { s with visited := s.visited ++ [l], pending := s.pending ++ [l] }) ls := by
      by_cases hl : l ∈ s.visited <;> simp [pushLinks, hl]
    rw [hstep]
    by_cases hl : l ∈ s.visited
    · rw [if_pos hl]
      obtain ⟨L, h1, h2, h3, h4, h5, h6, h7, h8⟩ := ih s
      exact ⟨L, h1, h2, h3,
        fun x hx => ⟨List.mem_cons_of_mem _ (h4 x hx).1, (h4 x hx).2⟩, h5, h6, h7, h8⟩
    · rw [if_neg hl]
      obtain ⟨L, h1, h2, h3, h4, h5, h6, h7, h8⟩ :=
        ih { s with visited := s.visited ++ [l], pending := s.pending ++ [l] }
      refine ⟨l :: L, ?_, ?_, ?_, ?_, h5, h6, h7, h8⟩
      · rw [h1]
        simp
      · rw [h2]
        simp
      · refine List.Nodup.cons ?_ h3
        intro hm
        have := (h4 l hm).2
        simp at this
      · intro x hx
        rcases List.mem_cons.mp hx with rfl | hx2
        · exact ⟨List.mem_cons_self _ _, hl⟩
        · refine ⟨List.mem_cons_of_mem _ (h4 x hx2).1, fun hv => (h4 x hx2).2 ?_⟩
          simp [hv]

theorem relevantLink_domain {o : Oracles} {bd baseUrl l nl : Str}
    (h : relevantLink o bd baseUrl l = some nl) : getBaseDomain nl = bd := by
  unfold relevantLink at h
  split at h
  · exact absurd h (by simp)
  · split at h
    · injection h with h
      subst h
      assumption
    · exact absurd h (by simp)

theorem allRelevant_domain {o : Oracles} {bd baseUrl : Str} (links : List Str)
    (visited : List Str) :
    ∀ x ∈ ((links.map (relevantLink o bd baseUrl)).filterMap id).filter
        (fun l => l ∉ visited), getBaseDomain x = bd := by
  intro x hx
  have hx2 := List.mem_of_mem_filter hx
  rw [List.mem_filterMap] at hx2
  obtain ⟨a, ha, hax⟩ := hx2
  rcases List.mem_map.mp ha with ⟨link, _, rfl⟩
  exact relevantLink_domain hax

theorem pushLinks_fetched (s : CrawlState) (links : List Str) :
    (pushLinks s links).fetched = s.fetched := by
  obtain ⟨_, _, _, _, _, _, _, h7, _⟩ := pushLinks_spec s links
  exact h7

theorem productUpdate_visited (prod : ProductData) (npu : Str) (s : CrawlState) :
    (productUpdate prod npu s).visited = s.visited := by
  unfold productUpdate
  split <;> rfl

theorem productUpdate_pending (prod : ProductData) (npu : Str) (s : CrawlState) :
    (productUpdate prod npu s).pending = s.pending := by
  unfold productUpdate
  split <;> rfl

theorem productUpdate_fetched (prod : ProductData) (npu : Str) (s : CrawlState) :
    (productUpdate prod npu s).fetched = s.fetched := by
  unfold productUpdate
  split <;> rfl

theorem vp_nil {bd : Str} {s t : CrawlState} (hv : t.visited = s.visited)
    (hp : t.pending = s.pending) :
    ∃ L, t.visited = s.visited ++ L ∧ t.pending = s.pending ++ L ∧ L.Nodup ∧
      ∀ x ∈ L, getBaseDomain x = bd ∧ x ∉ s.visited :=
  ⟨[], by simp [hv], by simp [hp], List.nodup_nil, by simp⟩

theorem vp_push {bd : Str} {s t : CrawlState} {links : List Str}
    (hdom : ∀ x ∈ links, getBaseDomain x = bd)
    (hv : t.visited = s.visited) (hp : t.pending = s.pending) :
    ∃ L, (pushLinks t links).visited = s.visited ++ L ∧
      (pushLinks t links).pending = s.pending ++ L ∧ L.Nodup ∧
      ∀ x ∈ L, getBaseDomain x = bd ∧ x ∉ s.visited := by
  obtain ⟨L, h1, h2, h3, h4, _, _, _, _⟩ := pushLinks_spec t links
  refine ⟨L, by rw [h1, hv], by rw [h2, hp], h3, fun x hx => ?_⟩
  refine ⟨hdom x (h4 x hx).1, ?_⟩
  rw [← hv]
  exact (h4 x hx).2

theorem crawlAnalyzed_vp {o : Oracles} {bd u baseUrl : Str} {pa : PageAnalysis}
    (s : CrawlState) :
    ∃ L, (crawlAnalyzed o bd u baseUrl pa s).visited = s.visited ++ L ∧
      (crawlAnalyzed o bd u baseUrl pa s).pending = s.pending ++ L ∧ L.Nodup ∧
      ∀ x ∈ L, getBaseDomain x = bd ∧ x ∉ s.visited := by
  unfold crawlAnalyzed
  split
  · rcases hnm : normalizeUrl u with _ | npu
    · exact vp_nil rfl rfl
    · exact vp_push (allRelevant_domain _ _) (productUpdate_visited ..)
        (productUpdate_pending ..)
  · exact vp_push (allRelevant_domain _ _) rfl rfl

theorem crawlAnalyzed_fetched {o : Oracles} {bd u baseUrl : Str} {pa : PageAnalysis}
    (s : CrawlState) :
    (crawlAnalyzed o bd u baseUrl pa s).fetched = s.fetched := by
  unfold crawlAnalyzed
  split
  · rcases hnm : normalizeUrl u with _ | npu
    · rfl
    · rw [pushLinks_fetched, productUpdate_fetched]
  · rw [pushLinks_fetched]

theorem crawlStep_vp (o : Oracles) (bd ns u : Str) (s : CrawlState) :
    ∃ L, (crawlStep o bd ns u s).visited = s.visited ++ L ∧
      (crawlStep o bd ns u s).pending = s.pending ++ L ∧ L.Nodup ∧
      ∀ x ∈ L, getBaseDomain x = bd ∧ x ∉ s.visited := by
  unfold crawlStep
  by_cases h1 : u = []
  · rw [if_pos h1]
    exact vp_nil rfl rfl
  rw [if_neg h1]
  by_cases h2 : o.isResource u = true
  · rw [if_pos h2]
    exact vp_nil rfl rfl
  rw [if_neg h2]
  by_cases h3 : ¬ (o.isLikely u = true) ∧ ns ≠ u
  · rw [if_pos h3]
    exact vp_nil rfl rfl
  rw [if_neg h3]
  rcases hfp : fetchPageM o u with _ | op
  · exact vp_nil rfl rfl
  rcases op with _ | ⟨html, links, baseUrl⟩
  · exact vp_nil rfl rfl
  obtain ⟨L, hv, hp, hn, hm⟩ := @crawlAnalyzed_vp o bd u baseUrl
    (o.analyze html u
      (((links.map (preprocessLink o bd baseUrl)).filterMap id).filter
        (fun l => l ∉ s.visited ∧ l ≠ u)))
    { s with fetched := s.fetched ++ [u], analyzed := s.analyzed ++ [u] }
  exact ⟨L, hv, hp, hn, hm⟩

theorem crawlStep_fetched (o : Oracles) (bd ns u : Str) (s : CrawlState) :
    (crawlStep o bd ns u s).fetched = s.fetched ∨
      (crawlStep o bd ns u s).fetched = s.fetched ++ [u] := by
  unfold crawlStep
  by_cases h1 : u = []
  · rw [if_pos h1]
    exact Or.inl rfl
  rw [if_neg h1]
  by_cases h2 : o.isResource u = true
  · rw [if_pos h2]
    exact Or.inl rfl
  rw [if_neg h2]
  by_cases h3 : ¬ (o.isLikely u = true) ∧ ns ≠ u
  · rw [if_pos h3]
    exact Or.inl rfl
  rw [if_neg h3]
  rcases hfp : fetchPageM o u with _ | op
  · exact Or.inr rfl
  rcases op with _ | ⟨html, links, baseUrl⟩
  · exact Or.inr rfl
  right
  rw [crawlAnalyzed_fetched]

theorem crawlLoop_succ (o : Oracles) (bd ns : Str) (mp : Int) (fuel : Nat)
    (s : CrawlState) :
    crawlLoop o bd ns mp (fuel + 1) s =
      if (s.visited.length : Int) < mp then
        match s.pending with
        | [] => s
        | u :: rest =>
          crawlLoop o bd ns mp fuel (crawlStep o bd ns u { s with pending := rest })
      else s := rfl

theorem crawlLoop_succ_nil {o : Oracles} {bd ns : Str} {mp : Int} {fuel : Nat}
    {s : CrawlState} (h : s.pending = []) :
    crawlLoop o bd ns mp (fuel + 1) s = s := by
  rw [crawlLoop_succ, h]
  split <;> rfl

theorem crawlLoop_succ_cons {o : Oracles} {bd ns : Str} {mp : Int} {fuel : Nat}
    {s : CrawlState} {u rest} (h : s.pending = u :: rest)
    (hg : (s.visited.length : Int) < mp) :
    crawlLoop o bd ns mp (fuel + 1) s =
      crawlLoop o bd ns mp fuel (crawlStep o bd ns u { s with pending := rest }) := by
  rw [crawlLoop_succ, if_pos hg, h]

theorem crawlLoop_succ_stop {o : Oracles} {bd ns : Str} {mp : Int} {fuel : Nat}
    {s : CrawlState} (hg : ¬ (s.visited.length : Int) < mp) :
    crawlLoop o bd ns mp (fuel + 1) s = s := by
  rw [crawlLoop_succ, if_neg hg]

theorem crawlLoop_fetch_bound (o : Oracles) (bd ns : Str) (mp : Int) :
    ∀ fuel (s : CrawlState),
      s.fetched.length + s.pending.length ≤ s.visited.length →
      ((crawlLoop o bd ns mp fuel s).fetched.length ≤ s.fetched.length ∨
        ((crawlLoop o bd ns mp fuel s).fetched.length : Int) ≤ mp - 1) := by
  intro fuel
  induction fuel with
  | zero =>
    intro s _
    exact Or.inl le_rfl
  | succ fuel ih =>
    intro s hinv
    by_cases hg : (s.visited.length : Int) < mp
    · rcases hpd : s.pending with _ | ⟨u, rest⟩
      · rw [crawlLoop_succ_nil hpd]
        exact Or.inl le_rfl
      · rw [crawlLoop_succ_cons hpd hg]
        obtain ⟨L, hv, hp, _, _⟩ := crawlStep_vp o bd ns u { s with pending := rest }
        have hv' : (crawlStep o bd ns u { s with pending := rest }).visited.length
            = s.visited.length + L.length := by
          rw [hv]
          simp
        have hp' : (crawlStep o bd ns u { s with pending := rest }).pending.length
            = rest.length + L.length := by
          rw [hp]
          simp
        have hpl : s.pending.length = rest.length + 1 := by
          rw [hpd]
          simp
        rcases crawlStep_fetched o bd ns u { s with pending := rest } with hf | hf
        · have hf' : (crawlStep o bd ns u { s with pending := rest }).fetched.length
              = s.fetched.length := by rw [hf]
          have hinv' : (crawlStep o bd ns u { s with pending := rest }).fetched.length
              + (crawlStep o bd ns u { s with pending := rest }).pending.length
              ≤ (crawlStep o bd ns u { s with pending := rest }).visited.length := by
            rw [hf', hp', hv']
            omega
          rcases ih _ hinv' with h | h
          · exact Or.inl (by rw [hf'] at h; exact h)
          · exact Or.inr h
        · have hf' : (crawlStep o bd ns u { s with pending := rest }).fetched.length
              = s.fetched.length + 1 := by
            rw [hf]
            simp
          have hinv' : (crawlStep o bd ns u { s with pending := rest }).fetched.length
              + (crawlStep o bd ns u { s with pending := rest }).pending.length
              ≤ (crawlStep o bd ns u { s with pending := rest }).visited.length := by
            rw [hf', hp', hv']
            omega
          have hbound : ((crawlStep o bd ns u { s with pending := rest }).fetched.length : Int)
              ≤ mp - 1 := by
            rw [hf']
            push_cast
            omega
          rcases ih _ hinv' with h | h
          · exact Or.inr (le_trans (by exact_mod_cast h) hbound)
          · exact Or.inr h
    · rw [crawlLoop_succ_stop hg]
      exact Or.inl le_rfl

theorem crawlLoop_inv (o : Oracles) (bd ns : Str) (mp : Int) :
    ∀ fuel (s : CrawlState),
      s.pending.Nodup → (∀ x ∈ s.pending, x ∈ s.visited) → s.visited.Nodup →
      ((crawlLoop o bd ns mp fuel s).pending.Nodup ∧
        (∀ x ∈ (crawlLoop o bd ns mp fuel s).pending,
          x ∈ (crawlLoop o bd ns mp fuel s).visited) ∧
        (crawlLoop o bd ns mp fuel s).visited.Nodup ∧
        s.visited.IsPrefix (crawlLoop o bd ns mp fuel s).visited) := by
  intro fuel
  induction fuel with
  | zero =>
    intro s h1 h2 h3
    exact ⟨h1, h2, h3, List.prefix_refl _⟩
  | succ fuel ih =>
    intro s h1 h2 h3
    by_cases hg : (s.visited.length : Int) < mp
    · rcases hpd : s.pending with _ | ⟨u, rest⟩
      · rw [crawlLoop_succ_nil hpd]
        exact ⟨h1, h2, h3, List.prefix_refl _⟩
      · rw [crawlLoop_succ_cons hpd hg]
        rw [hpd] at h1 h2
        obtain ⟨L, hv, hp, hn, hm⟩ := crawlStep_vp o bd ns u { s with pending := rest }
        have hdisj : ∀ x ∈ rest, x ∉ L := by
          intro x hx hxl
          exact (hm x hxl).2 (h2 x (List.mem_cons_of_mem _ hx))
        have hdisj2 : ∀ x ∈ s.visited, x ∉ L := fun x hx hxl => (hm x hxl).2 hx
        have hpn : (crawlStep o bd ns u { s with pending := rest }).pending.Nodup := by
          rw [hp]
          exact List.Nodup.append h1.of_cons hn hdisj
        have hsub : ∀ x ∈ (crawlStep o bd ns u { s with pending := rest }).pending,
            x ∈ (crawlStep o bd ns u { s with pending := rest }).visited := by
          intro x hx
          rw [hp] at hx
          rw [hv]
          rcases List.mem_append.mp hx with hx | hx
          · exact List.mem_append_left _ (h2 x (List.mem_cons_of_mem _ hx))
          · exact List.mem_append_right _ hx
        have hvn : (crawlStep o bd ns u { s with pending := rest }).visited.Nodup := by
          rw [hv]
          exact List.Nodup.append h3 hn hdisj2
        obtain ⟨g1, g2, g3, g4⟩ := ih _ hpn hsub hvn
        refine ⟨g1, g2, g3, ?_⟩
        refine List.IsPrefix.trans ?_ g4
        rw [hv]
        exact List.prefix_append _ _
    · rw [crawlLoop_succ_stop hg]
      exact ⟨h1, h2, h3, List.prefix_refl _⟩

theorem crawlLoop_domain (o : Oracles) (bd ns : Str) (mp : Int) :
    ∀ fuel (s : CrawlState),
      (∀ x ∈ s.pending, getBaseDomain x = bd) →
      (∀ x ∈ s.fetched, getBaseDomain x = bd) →
      ∀ x ∈ (crawlLoop o bd ns mp fuel s).fetched, getBaseDomain x = bd := by
  intro fuel
  induction fuel with
  | zero =>
    intro s _ h2
    exact h2
  | succ fuel ih =>
    intro s h1 h2
    by_cases hg : (s.visited.length : Int) < mp
    · rcases hpd : s.pending with _ | ⟨u, rest⟩
      · rw [crawlLoop_succ_nil hpd]
        exact h2
      · rw [crawlLoop_succ_cons hpd hg]
        rw [hpd] at h1
        obtain ⟨L, hv, hp, hn, hm⟩ := crawlStep_vp o bd ns u { s with pending := rest }
        refine ih _ ?_ ?_
        · intro x hx
          rw [hp] at hx
          rcases List.mem_append.mp hx with hx | hx
          · exact h1 x (List.mem_cons_of_mem _ hx)
          · exact (hm x hx).1
        · intro x hx
          rcases crawlStep_fetched o bd ns u { s with pending := rest } with hf | hf
          · rw [hf] at hx
            exact h2 x hx
          · rw [hf] at hx
            rcases List.mem_append.mp hx with hx | hx
            · exact h2 x hx
            · rw [List.mem_singleton.mp hx]
              exact h1 u (List.mem_cons_self _ _)
    · rw [crawlLoop_succ_stop hg]
      exact h2

theorem crawlStep_skip {o : Oracles} {bd ns u : Str} {s : CrawlState}
    (h1 : o.isLikely u = false) (h2 : ns ≠ u) :
    crawlStep o bd ns u s = s := by
  unfold crawlStep
  by_cases hu : u = []
  · rw [if_pos hu]
  · rw [if_neg hu]
    by_cases hr : o.isResource u = true
    · rw [if_pos hr]
    · rw [if_neg hr, if_pos ⟨by simp [h1], h2⟩]

theorem crawlStep_seed (o : Oracles) (bd ns : Str) (s : CrawlState)
    (h1 : ns ≠ []) (h2 : o.isResource ns = false) :
    (crawlStep o bd ns ns s).fetched = s.fetched ++ [ns] := by
  unfold crawlStep
  rw [if_neg h1, if_neg (by simp [h2]), if_neg (by rintro ⟨_, hne⟩; exact hne rfl)]
  rcases hfp : fetchPageM o ns with _ | op
  · rfl
  rcases op with _ | ⟨html, links, baseUrl⟩
  · rfl
  rw [crawlAnalyzed_fetched]

/-! ## Deduplication, first-seen wins (support for claim C5) -/

/-- First-seen-wins filter: keep a record exactly when its `url` key has not
appeared earlier (the `seen` accumulator holds the keys already kept). -/
def keepFirstAux (seen : List Str) : List ProductData → List ProductData
  | [] => []
  | p :: ps =>
    if p.url ∈ seen then keepFirstAux seen ps
    else p :: keepFirstAux (seen ++ [p.url]) ps

/-- The spec's reading of `deduplicateProducts`: keep the first record of
each product URL, in order of first appearance. -/
def keepFirstByUrl (l : List ProductData) : List ProductData := keepFirstAux [] l

theorem dedup_foldl (ps : List ProductData) : ∀ m : List (Str × ProductData),
    ((ps.foldl
        (fun m p => if m.any (fun e => e.1 = p.url) then m else m ++ [(p.url, p)])
        m).map (fun e => e.2))
      = m.map (fun e => e.2) ++ keepFirstAux (m.map (fun e => e.1)) ps := by
  induction ps with
  | nil =>
    intro m
    exact (List.append_nil _).symm
  | cons p ps ih =>
    intro m
    have hiff : (m.any (fun e => e.1 = p.url) = true) ↔ p.url ∈ m.map (fun e => e.1) := by
      simp only [List.any_eq_true, decide_eq_true_eq, List.mem_map]
    by_cases hm : p.url ∈ m.map (fun e => e.1)
    · rw [List.foldl_cons, if_pos (hiff.mpr hm)]
      rw [ih m]
      simp only [keepFirstAux]
      rw [if_pos hm]
    · rw [List.foldl_cons, if_neg (fun hc => hm (hiff.mp hc))]
      rw [ih (m ++ [(p.url, p)])]
      simp only [keepFirstAux]
      rw [if_neg hm]
      simp [List.map_append, List.append_assoc]

theorem deduplicateProducts_eq (ps : List ProductData) :
    deduplicateProducts ps = keepFirstByUrl ps := by
  unfold deduplicateProducts keepFirstByUrl
  have h := dedup_foldl ps []
  rw [List.map_nil, List.map_nil, List.nil_append] at h
  exact h

theorem keepFirstAux_nodup (ps : List ProductData) : ∀ seen : List Str,
    ((keepFirstAux seen ps).map (fun p => p.url)).Nodup ∧
    ∀ x ∈ (keepFirstAux seen ps).map (fun p => p.url), x ∉ seen := by
  induction ps with
  | nil =>
    intro seen
    exact ⟨List.nodup_nil, by simp [keepFirstAux]⟩
  | cons p ps ih =>
    intro seen
    by_cases hp : p.url ∈ seen
    · simp only [keepFirstAux, if_pos hp]
      exact ih seen
    · simp only [keepFirstAux, if_neg hp, List.map_cons, List.nodup_cons]
      obtain ⟨h1, h2⟩ := ih (seen ++ [p.url])
      refine ⟨⟨?_, h1⟩, ?_⟩
      · intro hc
        exact h2 _ hc (by simp)
      · intro x hx
        rcases List.mem_cons.mp hx with hx | hx
        · rw [hx]
          exact hp
        · exact fun hs => h2 x hx (List.mem_append_left _ hs)

theorem keepFirstByUrl_nodup (l : List ProductData) :
    ((keepFirstByUrl l).map (fun p => p.url)).Nodup :=
  (keepFirstAux_nodup l []).1

/-! ## Priorities and batch order (support for claim C9) -/

theorem processUrlB_priority {resolve : Str → Str → Option Str}
    {baseUrl baseDomain : Str} {visited : List Str} {url : Str} {k : Int}
    {pu : PendingUrl}
    (h : processUrlB resolve baseUrl baseDomain visited url k = some pu) :
    pu.priority = k := by
  unfold processUrlB at h
  rcases hr : (resolve url baseUrl).bind normalizeUrl with _ | nl
  · rw [hr] at h
    exact absurd h (by simp)
  · rw [hr] at h
    have h9 : (if getBaseDomain nl = baseDomain ∧ nl ∉ visited
        then some { url := nl, priority := k } else none) = some pu := h
    by_cases hc : getBaseDomain nl = baseDomain ∧ nl ∉ visited
    · rw [if_pos hc] at h9
      cases h9
      rfl
    · rw [if_neg hc] at h9
      exact absurd h9 (by simp)

instance : IsTotal PendingUrl priorityGe :=
  ⟨fun a b => le_total b.priority a.priority⟩

instance : IsTrans PendingUrl priorityGe :=
  ⟨fun _ _ _ h1 h2 => le_trans h2 h1⟩

theorem selectBatch_sorted (pending : List PendingUrl) :
    List.Sorted priorityGe (selectBatch pending).1 :=
  (List.sorted_insertionSort priorityGe pending).sublist
    (List.take_sublist BATCH_SIZE (List.insertionSort priorityGe pending))

theorem selectBatch_le (pending : List PendingUrl) :
    ∀ a ∈ (selectBatch pending).1, ∀ b ∈ (selectBatch pending).2, priorityGe a b := by
  have hs : List.Sorted priorityGe (List.insertionSort priorityGe pending) :=
    List.sorted_insertionSort priorityGe pending
  rw [← List.take_append_drop BATCH_SIZE (List.insertionSort priorityGe pending)] at hs
  intro a ha b hb
  exact (List.pairwise_append.mp hs).2.2 a ha b hb

/-! ## Concrete collaborators for the claim witnesses and counterexamples -/

/-- A classifier verdict with three product links on the crawl's domain. -/
def exAnalysis : PageAnalysis :=
  { pageType := PageType.category, product := none,
    productLinks := ["https://a.com/p1".data, "https://a.com/p2".data,
      "https://a.com/p3".data],
    paginationLinks := [], categoryLinks := [], otherRelevantLinks := [] }

/-- Collaborators for a small successful run: the browser starts, every
navigation renders an empty page, the classifier reports `exAnalysis`. -/
def exOracles : Oracles :=
  { init := Except.ok (),
    fetch := fun _ => FetchOutcome.success { html := [], links := [], respUrl := [] },
    analyze := fun _ _ _ => exAnalysis,
    resolve := fun l _ => some l,
    isResource := fun _ => false,
    isLikely := fun _ => true }

/-- The same collaborators with a failing browser start-up. -/
def failOracles : Oracles := { exOracles with init := Except.error "boom".data }

/-- The same collaborators with a heuristic that rejects every URL. -/
def gateOracles : Oracles := { exOracles with isLikely := fun _ => false }

def exResolve : Str → Str → Option Str := fun l _ => some l

/-- A classifier verdict holding exactly one product link. -/
def exPA : PageAnalysis :=
  { pageType := PageType.listing, product := none,
    productLinks := ["https://a.com/p".data], paginationLinks := [],
    categoryLinks := [], otherRelevantLinks := [] }

/-- A state that has already visited the normalised seed. -/
def exVisitedState : CrawlState :=
  { visited := ["https://a.com/".data], pending := [], products := [],
    seenProductUrls := [], fetched := [], analyzed := [] }

/-! ## The claims -/

/-- C1: corrected.  The source checks `visitedUrls.size < maxPages` only at
the top of the loop and then marks a whole page's worth of links visited,
so the visited set can exceed `maxPages` (see `C1_counterexample`).  What
the budget does bound is the number of pages fetched: every run hands at
most `maxPages - 1` URLs to `fetchPage` (none at all when `maxPages ≤ 1`
blocks every iteration). -/
theorem C1_fetch_budget (o : Oracles) (su : Str) (mp : Int) (fuel : Nat) :
    (crawlWebsite o su mp fuel).2.fetched.length = 0 ∨
    ((crawlWebsite o su mp fuel).2.fetched.length : Int) ≤ mp - 1 := by
  rcases hn : normalizeUrl su with _ | nstart
  · left
    simp only [crawlWebsite, hn]
    rfl
  · rcases hi : o.init with e | uu
    · left
      simp only [crawlWebsite, hn, hi]
      rfl
    · simp only [crawlWebsite, hn, hi]
      have h := crawlLoop_fetch_bound o (getBaseDomain su) nstart mp fuel
        { visited := [nstart], pending := [nstart], products := [],
          seenProductUrls := [], fetched := [], analyzed := [] }
        (by simp)
      rcases h with h | h
      · left
        exact Nat.le_zero.mp h
      · right
        exact h

/-- C1 counterexample: with `maxPages = 2`, the iteration that processes
the seed marks the classifier's three product links visited, so the
returned `visitedUrls` has 4 distinct entries. -/
theorem C1_counterexample :
    (crawlWebsite exOracles "https://a.com".data 2 5).1 =
      Except.ok
        { products := [],
          visitedUrls := ["https://a.com/".data, "https://a.com/p1".data,
            "https://a.com/p2".data, "https://a.com/p3".data],
          error := none } ∧
    (["https://a.com/".data, "https://a.com/p1".data, "https://a.com/p2".data,
        "https://a.com/p3".data] : List Str).Nodup ∧
    2 < (["https://a.com/".data, "https://a.com/p1".data, "https://a.com/p2".data,
        "https://a.com/p3".data] : List Str).length := by
  refine ⟨?_, by decide, by decide⟩
  rfl

/-- C2: confirmed.  A start URL that does not parse returns exactly the
invalid-result record, and the instrumented state shows zero `fetchPage`
and zero `analyzePageWithGemini` calls. -/
theorem C2_invalid_start (o : Oracles) (su : Str) (mp : Int) (fuel : Nat)
    (hv : isValidUrl su = false) :
    crawlWebsite o su mp fuel =
      (Except.ok { products := [], visitedUrls := [],
                   error := some "Invalid start URL".data }, emptyCrawlState) ∧
    (crawlWebsite o su mp fuel).2.fetched = [] ∧
    (crawlWebsite o su mp fuel).2.analyzed = [] := by
  have hn : normalizeUrl su = none := by
    unfold isValidUrl at hv
    unfold normalizeUrl
    rcases hp : parseUrl su with _ | u
    · rfl
    · rw [hp] at hv
      exact absurd hv (by simp)
  refine ⟨?_, ?_, ?_⟩ <;> simp only [crawlWebsite, hn] <;> trivial

/-- C2 witness: the spec's own example input, `"not a url"`. -/
theorem C2_witness :
    isValidUrl "not a url".data = false ∧
    crawlWebsite exOracles "not a url".data 100 5 =
      (Except.ok { products := [], visitedUrls := [],
                   error := some "Invalid start URL".data }, emptyCrawlState) :=
  ⟨by decide, (C2_invalid_start exOracles "not a url".data 100 5 (by decide)).1⟩

/-- C3: corrected.  A failing browser initialisation does not surface as
`CrawlResult.error`: `crawlWebsite` has a `try`/`finally` but no `catch`,
so the rejection of `initBrowser` propagates to the caller (the promise
rejects, modelled as `Except.error`), with no page processed. -/
theorem C3_init_failure (o : Oracles) (su : Str) (mp : Int) (fuel : Nat)
    (e : Str) (hv : isValidUrl su = true) (he : o.init = Except.error e) :
    (crawlWebsite o su mp fuel).1 = Except.error e ∧
    (crawlWebsite o su mp fuel).2 = emptyCrawlState := by
  obtain ⟨n, hn⟩ : ∃ n, normalizeUrl su = some n := by
    unfold isValidUrl at hv
    unfold normalizeUrl
    rcases hp : parseUrl su with _ | u
    · rw [hp] at hv
      exact absurd hv (by simp)
    · exact ⟨_, rfl⟩
  refine ⟨?_, ?_⟩ <;> simp only [crawlWebsite, hn, he] <;> trivial

/-- C3 counterexample: with a rejecting `initBrowser` the promise rejects;
it does not resolve to any `CrawlResult`. -/
theorem C3_counterexample :
    (crawlWebsite failOracles "https://a.com".data 100 5).1 =
      Except.error "boom".data ∧
    ∀ r : CrawlResult,
      (crawlWebsite failOracles "https://a.com".data 100 5).1 ≠ Except.ok r := by
  refine ⟨rfl, fun r h => ?_⟩
  rw [show (crawlWebsite failOracles "https://a.com".data 100 5).1
      = Except.error "boom".data from rfl] at h
  exact Except.noConfusion h

/-- C3 witness: a concrete failing initialisation. -/
theorem C3_witness :
    isValidUrl "https://a.com".data = true ∧
    failOracles.init = Except.error "boom".data ∧
    (crawlWebsite failOracles "https://a.com".data 7 3).1 = Except.error "boom".data :=
  ⟨by decide, rfl,
    (C3_init_failure failOracles "https://a.com".data 7 3 "boom".data
      (by decide) rfl).1⟩

/-- C4: confirmed.  Pushing a link already in the visited set is a no-op;
one crawl step only ever appends to the visited list; and after every run
the frontier holds no duplicate, every pending URL is already visited, and
the visited list itself has no duplicate. -/
theorem C4_frontier_invariants :
    (∀ (s : CrawlState) (l : Str), l ∈ s.visited → pushLinks s [l] = s) ∧
    (∀ (o : Oracles) (bd ns u : Str) (s : CrawlState),
      s.visited.IsPrefix (crawlStep o bd ns u s).visited) ∧
    (∀ (o : Oracles) (su : Str) (mp : Int) (fuel : Nat),
      (crawlWebsite o su mp fuel).2.pending.Nodup ∧
      (crawlWebsite o su mp fuel).2.visited.Nodup ∧
      ∀ x ∈ (crawlWebsite o su mp fuel).2.pending,
        x ∈ (crawlWebsite o su mp fuel).2.visited) := by
  refine ⟨?_, ?_, ?_⟩
  · intro s l hl
    simp [pushLinks, hl]
  · intro o bd ns u s
    obtain ⟨L, hv, _⟩ := crawlStep_vp o bd ns u s
    rw [hv]
    exact List.prefix_append _ _
  · intro o su mp fuel
    rcases hn : normalizeUrl su with _ | nstart
    · simp only [crawlWebsite, hn]
      exact ⟨List.nodup_nil, List.nodup_nil,
        fun x hx => absurd hx (List.not_mem_nil x)⟩
    · rcases hi : o.init with e | uu
      · simp only [crawlWebsite, hn, hi]
        exact ⟨List.nodup_nil, List.nodup_nil,
          fun x hx => absurd hx (List.not_mem_nil x)⟩
      · simp only [crawlWebsite, hn, hi]
        obtain ⟨g1, g2, g3, _⟩ := crawlLoop_inv o (getBaseDomain su) nstart mp fuel
          { visited := [nstart], pending := [nstart], products := [],
            seenProductUrls := [], fetched := [], analyzed := [] }
          (List.nodup_singleton _) (fun x hx => hx) (List.nodup_singleton _)
        exact ⟨g1, g3, g2⟩

/-- C4 witness: re-pushing the already-visited seed changes nothing. -/
theorem C4_witness :
    "https://a.com/".data ∈ exVisitedState.visited ∧
    pushLinks exVisitedState ["https://a.com/".data] = exVisitedState :=
  ⟨by decide,
    C4_frontier_invariants.1 exVisitedState "https://a.com/".data (by decide)⟩

/-- C5: confirmed.  The delivered product list never repeats a product URL,
and it equals the first-seen-wins filter of the records accumulated during
the run: a later record for an already-seen URL is dropped silently. -/
theorem C5_product_dedup (o : Oracles) (su : Str) (mp : Int) (fuel : Nat) :
    ((resultProducts (crawlWebsite o su mp fuel)).map (fun p => p.url)).Nodup ∧
    resultProducts (crawlWebsite o su mp fuel) =
      keepFirstByUrl (crawlWebsite o su mp fuel).2.products := by
  rcases hn : normalizeUrl su with _ | nstart
  · simp only [crawlWebsite, hn, resultProducts]
    exact ⟨List.nodup_nil, rfl⟩
  · rcases hi : o.init with e | uu
    · simp only [crawlWebsite, hn, hi, resultProducts]
      exact ⟨List.nodup_nil, rfl⟩
    · simp only [crawlWebsite, hn, hi, resultProducts]
      rw [deduplicateProducts_eq]
      exact ⟨keepFirstByUrl_nodup _, rfl⟩

/-- C6: corrected.  `removeLanguagePrefix` strips only the first locale
segment, so normalisation is not idempotent in general (see
`C6_counterexample`, where two locale segments are stacked).  It is
idempotent whenever the normalised URL's path no longer starts with a
locale segment. -/
theorem C6_normalize_idem {s v : Str} {w : Url} (h : normalizeUrl s = some v)
    (hw : parseUrl v = some w) (hlang : hasLangPrefix w.path = false) :
    normalizeUrl v = some v :=
  normalizeUrl_idem_of h hw hlang

/-- C6 witness: a normalisation output whose path keeps no locale prefix is
a fixed point of `normalizeUrl`. -/
theorem C6_witness :
    normalizeUrl "https://a.com/en/Shop/?b=2&a=1".data
      = some "https://a.com/shop?a=1&b=2".data ∧
    parseUrl "https://a.com/shop?a=1&b=2".data
      = some ⟨"https".data, "a.com".data, [], "/shop".data,
          [("a".data, "1".data), ("b".data, "2".data)], []⟩ ∧
    hasLangPrefix "/shop".data = false ∧
    normalizeUrl "https://a.com/shop?a=1&b=2".data
      = some "https://a.com/shop?a=1&b=2".data := by
  refine ⟨by decide, by decide, by decide, ?_⟩
  exact C6_normalize_idem (s := "https://a.com/en/Shop/?b=2&a=1".data)
    (w := ⟨"https".data, "a.com".data, [], "/shop".data,
      [("a".data, "1".data), ("b".data, "2".data)], []⟩)
    (by decide) (by decide) (by decide)

/-- C6 counterexample: a path with two stacked locale segments normalises
differently the second time around. -/
theorem C6_counterexample :
    normalizeUrl "https://a.com/en/fr/x".data = some "https://a.com/fr/x".data ∧
    normalizeUrl "https://a.com/fr/x".data = some "https://a.com/x".data ∧
    ("https://a.com/fr/x".data : Str) ≠ "https://a.com/x".data :=
  ⟨by decide, by decide, by decide⟩

/-- C7: corrected.  The quoted pair does normalise to the same key, and
normalisation is invariant under fragment, trailing slashes, letter case,
reordering of query parameters whose keys are pairwise distinct after
lower-casing, and one prepended locale segment when the remaining path
starts with no locale segment and is canonically slashed (empty, or a
single leading slash with nonempty segments separated by single slashes)
— but not under arbitrary query reordering (duplicate keys are
order-sensitive), stacked locale prefixes, or a locale prefix over a path
with empty segments, which the prefix branch collapses
(see `C7_counterexample`). -/
theorem C7_normalize_equiv :
    (normalizeUrl "https://a.com/en/Shop/?b=2&a=1".data
      = normalizeUrl "https://a.com/shop?a=1&b=2#x".data) ∧
    (∀ (s1 s2 : Str) (u : Url) (f : Str), parseUrl s1 = some u →
      parseUrl s2 = some { u with frag := f } →
      normalizeUrl s1 = normalizeUrl s2) ∧
    (∀ (s1 s2 : Str) (u : Url) (n : Nat), parseUrl s1 = some u →
      parseUrl s2 = some { u with path := u.path ++ List.replicate n '/' } →
      normalizeUrl s1 = normalizeUrl s2) ∧
    (∀ (s1 s2 : Str) (u1 u2 : Url), parseUrl s1 = some u1 → parseUrl s2 = some u2 →
      mapLowerUrl u1 = mapLowerUrl u2 →
      normalizeUrl s1 = normalizeUrl s2) ∧
    (∀ (s1 s2 : Str) (u : Url) (q : List (Str × Str)), parseUrl s1 = some u →
      parseUrl s2 = some { u with query := q } →
      u.query.Perm q → keyDistinct u.query →
      normalizeUrl s1 = normalizeUrl s2) ∧
    (∀ (s1 s2 : Str) (u : Url) (c : Str), parseUrl s1 = some u →
      parseUrl s2 = some { u with path := '/' :: (c ++ u.path) } →
      lowerStr c ∈ languageCodes → hasLangPrefix u.path = false →
      (u.path = [] ∨ u.path = '/' :: intercalateC '/' (partsOf u.path)) →
      normalizeUrl s1 = normalizeUrl s2) := by
  refine ⟨by decide, ?_, ?_, ?_, ?_, ?_⟩
  · intro s1 s2 u f h1 h2
    exact norm_frag_invariant h1 h2
  · intro s1 s2 u n h1 h2
    exact norm_trailing_invariant h1 h2
  · intro s1 s2 u1 u2 h1 h2 hc
    exact norm_case_invariant h1 h2 hc
  · intro s1 s2 u q h1 h2 hp hd
    exact norm_queryperm_invariant h1 h2 hp hd
  · intro s1 s2 u c h1 h2 hc hn hcanon
    exact norm_locale_invariant h1 h2 hc hn hcanon

/-- C7 witness: fragment invariance at a concrete pair. -/
theorem C7_witness :
    normalizeUrl "https://a.com/x".data = normalizeUrl "https://a.com/x#y".data :=
  C7_normalize_equiv.2.1 "https://a.com/x".data "https://a.com/x#y".data
    ⟨"https".data, "a.com".data, [], "/x".data, [], []⟩ "y".data
    (by decide) (by decide)

/-- C7 counterexample: duplicate-key query parameters are order-sensitive
(the sort is stable); a locale prefix over a path that itself starts with
a locale code changes the key; and a locale prefix over a path with an
empty segment changes the key, because only the prefix branch of
`removeLanguagePrefix` rebuilds the path from its nonempty segments
(`/a//b` is kept verbatim while `/en/a//b` becomes `/a/b`). -/
theorem C7_counterexample :
    normalizeUrl "https://a.com/shop?a=1&a=2".data
      ≠ normalizeUrl "https://a.com/shop?a=2&a=1".data ∧
    normalizeUrl "https://b.com/en/fr/x".data
      ≠ normalizeUrl "https://b.com/fr/x".data ∧
    normalizeUrl "https://a.com/a//b".data
      ≠ normalizeUrl "https://a.com/en/a//b".data :=
  ⟨by decide, by decide, by decide⟩

/-- C8: confirmed.  Every URL handed to the renderer during a run lies on
the start URL's hostname: both link filters keep a link only when its
`getBaseDomain` equals the crawl's base domain, so an off-domain link
reported by the classifier is fetched zero times. -/
theorem C8_domain_confined (o : Oracles) (su : Str) (mp : Int) (fuel : Nat) :
    ∀ x ∈ (crawlWebsite o su mp fuel).2.fetched,
      getBaseDomain x = getBaseDomain su := by
  rcases hn : normalizeUrl su with _ | nstart
  · simp only [crawlWebsite, hn]
    intro x hx
    exact absurd hx (List.not_mem_nil x)
  · rcases hi : o.init with e | uu
    · simp only [crawlWebsite, hn, hi]
      intro x hx
      exact absurd hx (List.not_mem_nil x)
    · simp only [crawlWebsite, hn, hi]
      refine crawlLoop_domain o (getBaseDomain su) nstart mp fuel _ ?_ ?_
      · intro x hx
        rw [List.mem_singleton.mp hx]
        exact getBaseDomain_normalizeUrl hn
      · intro x hx
        exact absurd hx (List.not_mem_nil x)

/-- C8 witness: a concrete run fetches the seed, which is on-domain. -/
theorem C8_witness :
    "https://a.com/".data ∈ (crawlWebsite exOracles "https://a.com".data 2 5).2.fetched ∧
    getBaseDomain "https://a.com/".data = getBaseDomain "https://a.com".data :=
  ⟨by decide,
    C8_domain_confined exOracles "https://a.com".data 2 5 "https://a.com/".data
      (by decide)⟩

/-- C9: confirmed.  Every enqueued classified link carries the priority of
its category — products 3, pagination 2, categories 2, other relevant
links 1 — the seed enters the frontier at priority 1, and each batch is
drawn in descending priority order ahead of everything left pending. -/
theorem C9_priorities :
    (∀ (resolve : Str → Str → Option Str) (links : List Str)
      (baseUrl baseDomain : Str) (visited : List Str) (pa : PageAnalysis)
      (pu : PendingUrl),
      pu ∈ processNewUrls resolve links baseUrl baseDomain visited pa →
      ((pu.priority = 3 ∧ ∃ l ∈ pa.productLinks,
          processUrlB resolve baseUrl baseDomain visited l 3 = some pu) ∨
       (pu.priority = 2 ∧ ∃ l ∈ pa.paginationLinks ++ pa.categoryLinks,
          processUrlB resolve baseUrl baseDomain visited l 2 = some pu) ∨
       (pu.priority = 1 ∧ ∃ l ∈ pa.otherRelevantLinks,
          processUrlB resolve baseUrl baseDomain visited l 1 = some pu))) ∧
    (∀ nstart : Str, initialPendingB nstart = [{ url := nstart, priority := 1 }]) ∧
    (∀ pending : List PendingUrl,
      List.Sorted priorityGe (selectBatch pending).1 ∧
      ∀ a ∈ (selectBatch pending).1, ∀ b ∈ (selectBatch pending).2,
        priorityGe a b) := by
  refine ⟨?_, fun nstart => rfl, fun pending => ⟨selectBatch_sorted pending, selectBatch_le pending⟩⟩
  intro resolve links baseUrl baseDomain visited pa pu hmem
  unfold processNewUrls at hmem
  rcases List.mem_append.mp hmem with habc | h4
  · rcases List.mem_append.mp habc with hab | h3
    · rcases List.mem_append.mp hab with h1 | h2
      · obtain ⟨l, hl, hp⟩ := List.mem_filterMap.mp h1
        exact Or.inl ⟨processUrlB_priority hp, l, hl, hp⟩
      · obtain ⟨l, hl, hp⟩ := List.mem_filterMap.mp h2
        exact Or.inr (Or.inl ⟨processUrlB_priority hp, l,
          List.mem_append_left _ hl, hp⟩)
    · obtain ⟨l, hl, hp⟩ := List.mem_filterMap.mp h3
      exact Or.inr (Or.inl ⟨processUrlB_priority hp, l,
        List.mem_append_right _ hl, hp⟩)
  · obtain ⟨l, hl, hp⟩ := List.mem_filterMap.mp h4
    exact Or.inr (Or.inr ⟨processUrlB_priority hp, l, hl, hp⟩)

/-- C9 witness: one concrete product link is enqueued at priority 3. -/
theorem C9_witness :
    ((⟨"https://a.com/p".data, 3⟩ : PendingUrl).priority = 3 ∧
      ∃ l ∈ exPA.productLinks,
        processUrlB exResolve "https://a.com/".data "a.com".data [] l 3
          = some ⟨"https://a.com/p".data, 3⟩) ∨
    ((⟨"https://a.com/p".data, 3⟩ : PendingUrl).priority = 2 ∧
      ∃ l ∈ exPA.paginationLinks ++ exPA.categoryLinks,
        processUrlB exResolve "https://a.com/".data "a.com".data [] l 2
          = some ⟨"https://a.com/p".data, 3⟩) ∨
    ((⟨"https://a.com/p".data, 3⟩ : PendingUrl).priority = 1 ∧
      ∃ l ∈ exPA.otherRelevantLinks,
        processUrlB exResolve "https://a.com/".data "a.com".data [] l 1
          = some ⟨"https://a.com/p".data, 3⟩) :=
  C9_priorities.1 exResolve [] "https://a.com/".data "a.com".data [] exPA
    ⟨"https://a.com/p".data, 3⟩ (by decide)

/-- C10: confirmed.  A dequeued non-seed URL that the heuristic rejects is
skipped whole — the state is returned unchanged, so nothing is fetched or
classified for it (it stays in the visited set it already occupies) —
while the seed bypasses the gate and is fetched regardless of the
heuristic's verdict. -/
theorem C10_likely_gate :
    (∀ (o : Oracles) (bd ns u : Str) (s : CrawlState),
      o.isLikely u = false → ns ≠ u → crawlStep o bd ns u s = s) ∧
    (∀ (o : Oracles) (bd ns : Str) (s : CrawlState),
      ns ≠ [] → o.isResource ns = false →
      (crawlStep o bd ns ns s).fetched = s.fetched ++ [ns]) :=
  ⟨fun _ _ _ _ _ h1 h2 => crawlStep_skip h1 h2,
   fun o bd ns s h1 h2 => crawlStep_seed o bd ns s h1 h2⟩

/-- C10 witness: with a heuristic that rejects everything, a non-seed URL
leaves the state untouched. -/
theorem C10_witness :
    gateOracles.isLikely "https://a.com/x".data = false ∧
    ("https://a.com/".data : Str) ≠ "https://a.com/x".data ∧
    crawlStep gateOracles "a.com".data "https://a.com/".data "https://a.com/x".data
      emptyCrawlState = emptyCrawlState :=
  ⟨rfl, by decide,
    C10_likely_gate.1 gateOracles "a.com".data "https://a.com/".data
      "https://a.com/x".data emptyCrawlState rfl (by decide)⟩
